import Mathlib

/-!
# app_fifo: a power-of-two ring buffer of bytes

Shallow embedding of `src/app_fifo.c` / `src/app_fifo.h`.

* `uint8_t` values are `Fin 256`; `uint16_t` / `uint32_t` values are natural numbers, with the
  wrap-around of 32-bit arithmetic written out as `% 2 ^ 32`.
* A pointer argument that may be `NULL` is an `Option`; the memory behind a non-null byte pointer
  is a `List uint8_t`.
* A C function that mutates `*p_fifo` or writes through an out parameter returns the new values
  next to its status code.
-/

namespace AppFifo

/-! ## Types and constants (app_fifo.h) -/

abbrev uint8_t := Fin 256

def FIFO_ERROR_BASE_NUM : Nat := 0x0
def FIFO_SUCCESS : Nat := FIFO_ERROR_BASE_NUM + 0
def FIFO_ERROR_NO_MEM : Nat := FIFO_ERROR_BASE_NUM + 4
def FIFO_ERROR_NOT_FOUND : Nat := FIFO_ERROR_BASE_NUM + 5
def FIFO_ERROR_INVALID_LENGTH : Nat := FIFO_ERROR_BASE_NUM + 9
def FIFO_ERROR_NULL : Nat := FIFO_ERROR_BASE_NUM + 14

/-- The C constant `NULL` when it is returned from a function whose return type is `uint32_t`:
the null pointer constant converts to the integer zero. -/
def NULL : Nat := 0

/-- The struct `app_fifo_t`: `p_buf` is the memory the buffer pointer refers to,
`buf_size_mask` is a `uint16_t`, `read_pos` and `write_pos` are `uint32_t`. -/
structure app_fifo_t where
  p_buf : List uint8_t
  buf_size_mask : Nat
  read_pos : Nat
  write_pos : Nat
deriving DecidableEq, Repr

/-! ## Preprocessor definitions and static helpers (app_fifo.c) -/

/-- Macro `FIFO_IS_POWER_OF_TWO(A)`: `( ((A) != 0) && ((((A) - 1) & (A)) == 0) )`. -/
def FIFO_IS_POWER_OF_TWO (A : Nat) : Bool :=
  (A != 0) && (((A - 1) &&& A) == 0)

/-- Macro `FIFO_MIN(x,y)`: `((x) < (y) ? (x) : (y))`. -/
def FIFO_MIN (x y : Nat) : Nat :=
  if x < y then x else y

/-- Subtraction of two `uint32_t` values. -/
def sub32 (a b : Nat) : Nat :=
  (a + (2 ^ 32 - b % 2 ^ 32)) % 2 ^ 32

/-- Function `fifo_length`: `write_pos - read_pos` in 32-bit unsigned arithmetic. -/
def fifo_length (p_fifo : app_fifo_t) : Nat :=
  let tmp := p_fifo.read_pos
  sub32 p_fifo.write_pos tmp

/-- Function `fifo_put`: store the byte at `write_pos & buf_size_mask`, then `write_pos++`. -/
def fifo_put (p_fifo : app_fifo_t) (byte : uint8_t) : app_fifo_t :=
  { p_fifo with
    p_buf := p_fifo.p_buf.set (p_fifo.write_pos &&& p_fifo.buf_size_mask) byte
    write_pos := (p_fifo.write_pos + 1) % 2 ^ 32 }

/-- Function `fifo_peek`: the byte at `(read_pos + index) & buf_size_mask`, which the C code
stores in `*p_byte`. -/
def fifo_peek (p_fifo : app_fifo_t) (index : Nat) : uint8_t :=
  p_fifo.p_buf.getD (((p_fifo.read_pos + index) % 2 ^ 32) &&& p_fifo.buf_size_mask) 0

/-- Function `fifo_get`: `fifo_peek` at index 0, then `read_pos++`. -/
def fifo_get (p_fifo : app_fifo_t) : app_fifo_t × uint8_t :=
  let byte := fifo_peek p_fifo 0
  ({ p_fifo with read_pos := (p_fifo.read_pos + 1) % 2 ^ 32 }, byte)

/-! ## Public functions (app_fifo.c) -/

/-- Function `app_fifo_init`: returns the status and the content of `*p_fifo` after the call. -/
def app_fifo_init (p_fifo : app_fifo_t) (p_buf : Option (List uint8_t)) (buf_size : Nat) :
    Nat × app_fifo_t :=
  match p_buf with
  | none => (NULL, p_fifo)
  | some buf =>
    if !FIFO_IS_POWER_OF_TWO buf_size then
      (FIFO_ERROR_INVALID_LENGTH, p_fifo)
    else
      (FIFO_SUCCESS,
        { p_buf := buf
          buf_size_mask := (buf_size - 1) % 2 ^ 16
          read_pos := 0
          write_pos := 0 })

/-- Function `app_fifo_put`: returns the status and the FIFO after the call. -/
def app_fifo_put (p_fifo : app_fifo_t) (byte : uint8_t) : Nat × app_fifo_t :=
  if fifo_length p_fifo ≤ p_fifo.buf_size_mask then
    (FIFO_SUCCESS, fifo_put p_fifo byte)
  else
    (FIFO_ERROR_NO_MEM, p_fifo)

/-- Function `app_fifo_get`: `p_byte` is the content of `*p_byte` before the call; returns the
status, the FIFO after the call and the content of `*p_byte` after the call. -/
def app_fifo_get (p_fifo : app_fifo_t) (p_byte : uint8_t) : Nat × app_fifo_t × uint8_t :=
  if fifo_length p_fifo ≠ 0 then
    let r := fifo_get p_fifo
    (FIFO_SUCCESS, r.1, r.2)
  else
    (FIFO_ERROR_NOT_FOUND, p_fifo, p_byte)

/-- Function `app_fifo_peek`: `index` is a `uint16_t`; `p_byte` is the content of `*p_byte`
before the call; returns the status, the FIFO after the call and the content of `*p_byte` after
the call. -/
def app_fifo_peek (p_fifo : app_fifo_t) (index : Nat) (p_byte : uint8_t) :
    Nat × app_fifo_t × uint8_t :=
  if fifo_length p_fifo > index then
    (FIFO_SUCCESS, p_fifo, fifo_peek p_fifo index)
  else
    (FIFO_ERROR_NOT_FOUND, p_fifo, p_byte)

/-- Function `app_fifo_flush`: `read_pos = write_pos`. -/
def app_fifo_flush (p_fifo : app_fifo_t) : Nat × app_fifo_t :=
  (FIFO_SUCCESS, { p_fifo with read_pos := p_fifo.write_pos })

/-- The loop `while (index < read_size) fifo_get(p_fifo, &p_byte_array[index++]);` of
`app_fifo_read`, one iteration per unit of fuel. -/
def read_loop : Nat → app_fifo_t → List uint8_t → Nat → Nat → app_fifo_t × List uint8_t
  | 0, p_fifo, p_byte_array, _, _ => (p_fifo, p_byte_array)
  | fuel + 1, p_fifo, p_byte_array, index, read_size =>
    if index < read_size then
      let r := fifo_get p_fifo
      read_loop fuel r.1 (p_byte_array.set index r.2) (index + 1) read_size
    else
      (p_fifo, p_byte_array)

/-- The loop `while (index < write_size) fifo_put(p_fifo, p_byte_array[index++]);` of
`app_fifo_write`, one iteration per unit of fuel. -/
def write_loop : Nat → app_fifo_t → List uint8_t → Nat → Nat → app_fifo_t
  | 0, p_fifo, _, _, _ => p_fifo
  | fuel + 1, p_fifo, p_byte_array, index, write_size =>
    if index < write_size then
      write_loop fuel (fifo_put p_fifo (p_byte_array.getD index 0)) p_byte_array (index + 1)
        write_size
    else
      p_fifo

/-- Function `app_fifo_read`: returns the status, `*p_fifo`, `p_byte_array[..]` and `*p_size`
after the call. The loop starts at index 0 and so ends within `read_size` iterations
(`read_loop_fuel`). -/
def app_fifo_read (p_fifo : Option app_fifo_t) (p_byte_array : Option (List uint8_t))
    (p_size : Option Nat) : Nat × Option app_fifo_t × Option (List uint8_t) × Option Nat :=
  match p_fifo with
  | none => (NULL, p_fifo, p_byte_array, p_size)
  | some fifo =>
    match p_size with
    | none => (NULL, p_fifo, p_byte_array, p_size)
    | some size =>
      let byte_count := fifo_length fifo
      let requested_len := size
      let read_size := FIFO_MIN requested_len byte_count
      if byte_count = 0 then
        (FIFO_ERROR_NOT_FOUND, some fifo, p_byte_array, some byte_count)
      else
        match p_byte_array with
        | none => (FIFO_SUCCESS, some fifo, none, some byte_count)
        | some arr =>
          let r := read_loop read_size fifo arr 0 read_size
          (FIFO_SUCCESS, some r.1, some r.2, some read_size)

/-- Function `app_fifo_write`: returns the status, `*p_fifo` and `*p_size` after the call. The
loop starts at index 0 and so ends within `write_size` iterations (`write_loop_fuel`). -/
def app_fifo_write (p_fifo : Option app_fifo_t) (p_byte_array : Option (List uint8_t))
    (p_size : Option Nat) : Nat × Option app_fifo_t × Option Nat :=
  match p_fifo with
  | none => (NULL, p_fifo, p_size)
  | some fifo =>
    match p_size with
    | none => (NULL, p_fifo, p_size)
    | some size =>
      let available_count := (sub32 fifo.buf_size_mask (fifo_length fifo) + 1) % 2 ^ 32
      let requested_len := size
      let write_size := FIFO_MIN requested_len available_count
      if available_count = 0 then
        (FIFO_ERROR_NO_MEM, some fifo, some available_count)
      else
        match p_byte_array with
        | none => (FIFO_SUCCESS, some fifo, some available_count)
        | some arr =>
          (FIFO_SUCCESS, some (write_loop write_size fifo arr 0 write_size), some write_size)

/-! ## Call sequences and state predicates used by the theorems -/

/-- A FIFO as `app_fifo_init` sets it up over a buffer of at least `buf_size` bytes and as the
operations keep it: the capacity `buf_size_mask + 1` passes the power-of-two check of
`app_fifo_init` and fits a `uint16_t`, both counters are `uint32_t` values, the occupancy is at
most the capacity, and the backing array holds at least `buf_size_mask + 1` bytes. -/
def valid (p_fifo : app_fifo_t) : Prop :=
  FIFO_IS_POWER_OF_TWO (p_fifo.buf_size_mask + 1) = true ∧
  p_fifo.buf_size_mask < 2 ^ 16 ∧
  p_fifo.read_pos < 2 ^ 32 ∧
  p_fifo.write_pos < 2 ^ 32 ∧
  fifo_length p_fifo ≤ p_fifo.buf_size_mask + 1 ∧
  p_fifo.buf_size_mask < p_fifo.p_buf.length

instance (p_fifo : app_fifo_t) : Decidable (valid p_fifo) := by
  unfold valid
  infer_instance

/-- The queued bytes, oldest first: `p_buf[(read_pos + i) & buf_size_mask]` for
`i = 0 .. occupancy - 1`. -/
def contents (p_fifo : app_fifo_t) : List uint8_t :=
  (List.range (fifo_length p_fifo)).map (fifo_peek p_fifo)

/-- Successive calls `app_fifo_put(b_1) .. app_fifo_put(b_N)`: the statuses in call order and
the FIFO after the last call. -/
def put_all (p_fifo : app_fifo_t) : List uint8_t → List Nat × app_fifo_t
  | [] => ([], p_fifo)
  | b :: bs =>
    let r := app_fifo_put p_fifo b
    let rest := put_all r.2 bs
    (r.1 :: rest.1, rest.2)

/-- Successive calls of `app_fifo_get` on one output variable whose content before the first
call is `p_byte`: after each call its status and the content of the output variable, in call
order, and the FIFO after the last call. -/
def get_n (p_fifo : app_fifo_t) (p_byte : uint8_t) : Nat → List (Nat × uint8_t) × app_fifo_t
  | 0 => ([], p_fifo)
  | n + 1 =>
    let r := app_fifo_get p_fifo p_byte
    let rest := get_n r.2.1 r.2.2 n
    ((r.1, r.2.2) :: rest.1, rest.2)

/-- One call of a public operation on an initialised FIFO, with its arguments other than the
FIFO pointer. -/
inductive Op where
  | put (byte : uint8_t)
  | get (p_byte : uint8_t)
  | peek (index : Nat) (p_byte : uint8_t)
  | flush
  | read (p_byte_array : Option (List uint8_t)) (p_size : Option Nat)
  | write (p_byte_array : Option (List uint8_t)) (p_size : Option Nat)
deriving DecidableEq, Repr

/-- The FIFO after one call. -/
def step (p_fifo : app_fifo_t) : Op → app_fifo_t
  | Op.put byte => (app_fifo_put p_fifo byte).2
  | Op.get p_byte => (app_fifo_get p_fifo p_byte).2.1
  | Op.peek index p_byte => (app_fifo_peek p_fifo index p_byte).2.1
  | Op.flush => (app_fifo_flush p_fifo).2
  | Op.read p_byte_array p_size =>
    ((app_fifo_read (some p_fifo) p_byte_array p_size).2.1).getD p_fifo
  | Op.write p_byte_array p_size =>
    ((app_fifo_write (some p_fifo) p_byte_array p_size).2.1).getD p_fifo

/-- The FIFO after a finite sequence of calls. -/
def run (p_fifo : app_fifo_t) (ops : List Op) : app_fifo_t :=
  ops.foldl step p_fifo

/-- Whether a call is an `app_fifo_put`. -/
def Op.isPut : Op → Bool
  | Op.put _ => true
  | _ => false

/-- Whether a call is an `app_fifo_get`. -/
def Op.isGet : Op → Bool
  | Op.get _ => true
  | _ => false

/-- An integer clamped to `[0, C]`. -/
def clamp (C : Nat) (x : Int) : Nat :=
  if x < 0 then 0 else if (C : Int) < x then C else x.toNat

/-- The count kept call by call: a put adds one unless the count is already `C`, a get takes
one away unless the count is already zero, every other call leaves it. -/
def running_count (C : Nat) (n : Nat) : Op → Nat
  | Op.put _ => if n < C then n + 1 else n
  | Op.get _ => n - 1
  | _ => n

/-- The queue of the specification, put: on a queue of fewer than `C` bytes the byte is
appended and the status is success; on a queue of `C` bytes the status is Full and the queue is
unchanged. -/
def queue_put (C : Nat) (q : List uint8_t) (byte : uint8_t) : Nat × List uint8_t :=
  if q.length < C then (FIFO_SUCCESS, q ++ [byte]) else (FIFO_ERROR_NO_MEM, q)

/-- The queue of the specification, get: on a non-empty queue the head is returned, the tail
stays and the status is success; on the empty queue the status is Empty and there is no
output. -/
def queue_get : List uint8_t → Nat × List uint8_t × Option uint8_t
  | [] => (FIFO_ERROR_NOT_FOUND, [], none)
  | x :: xs => (FIFO_SUCCESS, xs, some x)

/-- A FIFO with its two counters replaced, the buffer and the mask kept. -/
def with_counters (p_fifo : app_fifo_t) (read_pos write_pos : Nat) : app_fifo_t :=
  { p_fifo with read_pos := read_pos, write_pos := write_pos }

/-! ## Arithmetic of the power-of-two check and of the 32-bit counters -/

theorem land_pred_eq_zero_imp (n : Nat) : n ≠ 0 → (n - 1) &&& n = 0 → ∃ k, n = 2 ^ k := by
  induction n using Nat.strong_induction_on with
  | _ n ih =>
    intro hn h
    by_cases h1 : n = 1
    · exact ⟨0, by simp [h1]⟩
    · have hdiv : (n - 1) / 2 &&& n / 2 = 0 := by
        rw [← Nat.and_div_two, h]
      rcases Nat.mod_two_eq_zero_or_one n with hpar | hpar
      · have e1 : (n - 1) / 2 = n / 2 - 1 := by omega
        rw [e1] at hdiv
        obtain ⟨k, hk⟩ := ih (n / 2) (by omega) (by omega) hdiv
        exact ⟨k + 1, by rw [pow_succ, ← hk]; omega⟩
      · have e1 : (n - 1) / 2 = n / 2 := by omega
        rw [e1, Nat.and_self] at hdiv
        omega

theorem FIFO_IS_POWER_OF_TWO_iff (n : Nat) :
    FIFO_IS_POWER_OF_TWO n = true ↔ ∃ k, n = 2 ^ k := by
  constructor
  · intro h
    simp only [FIFO_IS_POWER_OF_TWO, Bool.and_eq_true, bne_iff_ne, ne_eq, beq_iff_eq] at h
    exact land_pred_eq_zero_imp n h.1 h.2
  · rintro ⟨k, rfl⟩
    simp only [FIFO_IS_POWER_OF_TWO, Bool.and_eq_true, bne_iff_ne, ne_eq, beq_iff_eq]
    refine ⟨by positivity, ?_⟩
    rw [Nat.and_comm, Nat.and_pow_two_sub_one_eq_mod, Nat.mod_self]

theorem sub32_lt (a b : Nat) : sub32 a b < 2 ^ 32 := by
  unfold sub32
  omega

theorem fifo_length_def (f : app_fifo_t) :
    fifo_length f = (f.write_pos + (2 ^ 32 - f.read_pos % 2 ^ 32)) % 2 ^ 32 := rfl

theorem fifo_length_lt (f : app_fifo_t) : fifo_length f < 2 ^ 32 :=
  sub32_lt _ _

theorem land_mask (x mask k : Nat) (h : mask + 1 = 2 ^ k) : x &&& mask = x % (mask + 1) := by
  have hm : mask = 2 ^ k - 1 := by omega
  rw [h, hm, Nat.and_pow_two_sub_one_eq_mod]

theorem valid_pow (f : app_fifo_t) (hv : valid f) :
    ∃ k, k ≤ 16 ∧ f.buf_size_mask + 1 = 2 ^ k := by
  obtain ⟨k, hk⟩ := (FIFO_IS_POWER_OF_TWO_iff _).1 hv.1
  refine ⟨k, ?_, hk⟩
  have h16 : f.buf_size_mask + 1 ≤ 2 ^ 16 := hv.2.1
  rw [hk] at h16
  exact (Nat.pow_le_pow_iff_right (by decide)).1 h16

/-- In a valid FIFO the masked 32-bit position is the position modulo the capacity. -/
theorem slot_eq_mod (f : app_fifo_t) (hv : valid f) (x : Nat) :
    (x % 2 ^ 32) &&& f.buf_size_mask = x % (f.buf_size_mask + 1) := by
  obtain ⟨k, hk16, hk⟩ := valid_pow f hv
  rw [land_mask _ _ k hk, hk]
  exact Nat.mod_mod_of_dvd x (pow_dvd_pow 2 (by omega))

theorem slot_lt (f : app_fifo_t) (hv : valid f) (x : Nat) :
    x &&& f.buf_size_mask < f.p_buf.length :=
  lt_of_le_of_lt Nat.and_le_right hv.2.2.2.2.2

theorem mod_add_inj (C r i j : Nat) (hi : i < C) (hj : j < C)
    (h : (r + i) % C = (r + j) % C) : i = j := by
  have hm : i ≡ j [MOD C] := Nat.ModEq.add_left_cancel' r h
  unfold Nat.ModEq at hm
  rwa [Nat.mod_eq_of_lt hi, Nat.mod_eq_of_lt hj] at hm

theorem write_pos_eq (f : app_fifo_t) (hv : valid f) :
    f.write_pos = (f.read_pos + fifo_length f) % 2 ^ 32 := by
  obtain ⟨_, _, hr, hw, _, _⟩ := hv
  rw [fifo_length_def]
  omega

/-! ## Single-byte steps on a valid FIFO -/

theorem fifo_length_fifo_put (f : app_fifo_t) (b : uint8_t) (h16 : f.buf_size_mask < 2 ^ 16)
    (hroom : fifo_length f ≤ f.buf_size_mask) :
    fifo_length (fifo_put f b) = fifo_length f + 1 := by
  simp only [fifo_length_def, fifo_put] at *
  omega

theorem valid_fifo_put (f : app_fifo_t) (b : uint8_t) (hv : valid f)
    (hroom : fifo_length f ≤ f.buf_size_mask) : valid (fifo_put f b) := by
  have hlen := fifo_length_fifo_put f b hv.2.1 hroom
  obtain ⟨hp, h16, hr, hw, hocc, hbuf⟩ := hv
  refine ⟨hp, h16, hr, ?_, ?_, ?_⟩
  · exact Nat.mod_lt _ (by decide)
  · rw [hlen]
    show fifo_length f + 1 ≤ f.buf_size_mask + 1
    omega
  · simpa [fifo_put] using hbuf

theorem fifo_peek_fifo_put_of_lt (f : app_fifo_t) (b : uint8_t) (hv : valid f)
    (hroom : fifo_length f ≤ f.buf_size_mask) (i : Nat) (hi : i < fifo_length f) :
    fifo_peek (fifo_put f b) i = fifo_peek f i := by
  have hw := write_pos_eq f hv
  have hne : f.write_pos &&& f.buf_size_mask ≠
      ((f.read_pos + i) % 2 ^ 32) &&& f.buf_size_mask := by
    rw [slot_eq_mod f hv, hw, slot_eq_mod f hv]
    intro h
    have := mod_add_inj (f.buf_size_mask + 1) f.read_pos (fifo_length f) i (by omega) (by omega) h
    omega
  simp only [fifo_peek, fifo_put, List.getD_eq_getElem?_getD]
  rw [List.getElem?_set_ne hne]

theorem fifo_peek_fifo_put_self (f : app_fifo_t) (b : uint8_t) (hv : valid f) :
    fifo_peek (fifo_put f b) (fifo_length f) = b := by
  have hw := write_pos_eq f hv
  have he : ((f.read_pos + fifo_length f) % 2 ^ 32) &&& f.buf_size_mask =
      f.write_pos &&& f.buf_size_mask := by rw [← hw]
  simp only [fifo_peek, fifo_put, List.getD_eq_getElem?_getD]
  rw [he, List.getElem?_set_self (slot_lt f hv _)]
  rfl

/-- A put into a valid FIFO that is not full appends the byte to the queued bytes. -/
theorem contents_fifo_put (f : app_fifo_t) (b : uint8_t) (hv : valid f)
    (hroom : fifo_length f ≤ f.buf_size_mask) :
    contents (fifo_put f b) = contents f ++ [b] := by
  unfold contents
  rw [fifo_length_fifo_put f b hv.2.1 hroom, List.range_succ, List.map_append]
  congr 1
  · apply List.map_congr_left
    intro i hi
    exact fifo_peek_fifo_put_of_lt f b hv hroom i (List.mem_range.1 hi)
  · simp [fifo_peek_fifo_put_self f b hv]

theorem length_contents (f : app_fifo_t) : (contents f).length = fifo_length f := by
  simp [contents]

theorem fifo_length_fifo_get (f : app_fifo_t) (hne : fifo_length f ≠ 0) :
    fifo_length (fifo_get f).1 = fifo_length f - 1 := by
  simp only [fifo_length_def, fifo_get] at *
  omega

theorem valid_fifo_get (f : app_fifo_t) (hv : valid f) (hne : fifo_length f ≠ 0) :
    valid (fifo_get f).1 := by
  have hlen := fifo_length_fifo_get f hne
  obtain ⟨hp, h16, hr, hw, hocc, hbuf⟩ := hv
  refine ⟨hp, h16, ?_, hw, ?_, hbuf⟩
  · exact Nat.mod_lt _ (by decide)
  · rw [hlen]
    show fifo_length f - 1 ≤ f.buf_size_mask + 1
    omega

theorem fifo_peek_fifo_get (f : app_fifo_t) (i : Nat) :
    fifo_peek (fifo_get f).1 i = fifo_peek f (i + 1) := by
  simp only [fifo_peek, fifo_get]
  congr 2
  omega

/-- A get from a valid non-empty FIFO takes the head off the queued bytes. -/
theorem contents_fifo_get (f : app_fifo_t) (hne : fifo_length f ≠ 0) :
    contents f = (fifo_get f).2 :: contents (fifo_get f).1 := by
  unfold contents
  rw [fifo_length_fifo_get f hne]
  obtain ⟨n, hn⟩ : ∃ n, fifo_length f = n + 1 := ⟨fifo_length f - 1, by omega⟩
  rw [hn, List.range_succ_eq_map, List.map_cons, List.map_map]
  congr 1
  apply List.map_congr_left
  intro i _
  simp [fifo_peek_fifo_get]

theorem app_fifo_put_of_room (f : app_fifo_t) (b : uint8_t)
    (hroom : fifo_length f ≤ f.buf_size_mask) :
    app_fifo_put f b = (FIFO_SUCCESS, fifo_put f b) := by
  simp [app_fifo_put, hroom]

theorem app_fifo_put_of_full (f : app_fifo_t) (b : uint8_t)
    (hfull : ¬ fifo_length f ≤ f.buf_size_mask) :
    app_fifo_put f b = (FIFO_ERROR_NO_MEM, f) := by
  simp [app_fifo_put, hfull]

theorem app_fifo_get_of_ne (f : app_fifo_t) (p : uint8_t) (hne : fifo_length f ≠ 0) :
    app_fifo_get f p = (FIFO_SUCCESS, (fifo_get f).1, (fifo_get f).2) := by
  simp [app_fifo_get, hne]

theorem app_fifo_get_of_empty (f : app_fifo_t) (p : uint8_t) (he : fifo_length f = 0) :
    app_fifo_get f p = (FIFO_ERROR_NOT_FOUND, f, p) := by
  simp [app_fifo_get, he]

/-! ## Sequences of puts and gets on a valid FIFO -/

theorem put_all_append (f : app_fifo_t) (xs ys : List uint8_t) :
    put_all f (xs ++ ys) =
      ((put_all f xs).1 ++ (put_all (put_all f xs).2 ys).1, (put_all (put_all f xs).2 ys).2) := by
  induction xs generalizing f with
  | nil => simp [put_all]
  | cons x xs ih => simp [put_all, ih]

theorem put_all_spec (bs : List uint8_t) (f : app_fifo_t) (hv : valid f)
    (hroom : fifo_length f + bs.length ≤ f.buf_size_mask + 1) :
    (put_all f bs).1 = List.replicate bs.length FIFO_SUCCESS ∧
    valid (put_all f bs).2 ∧
    contents (put_all f bs).2 = contents f ++ bs ∧
    (put_all f bs).2.buf_size_mask = f.buf_size_mask := by
  induction bs generalizing f with
  | nil => simp [put_all, hv]
  | cons b bs ih =>
    simp only [List.length_cons] at hroom
    have h1 : fifo_length f ≤ f.buf_size_mask := by omega
    have hv1 := valid_fifo_put f b hv h1
    have hl1 := fifo_length_fifo_put f b hv.2.1 h1
    have hm1 : (fifo_put f b).buf_size_mask = f.buf_size_mask := rfl
    obtain ⟨i1, i2, i3, i4⟩ := ih (fifo_put f b) hv1 (by rw [hl1, hm1]; omega)
    simp only [put_all, app_fifo_put_of_room f b h1, List.length_cons, List.replicate_succ]
    refine ⟨by rw [i1], i2, ?_, by rw [i4, hm1]⟩
    rw [i3, contents_fifo_put f b hv h1]
    simp

theorem get_n_spec (bs : List uint8_t) (f : app_fifo_t) (p : uint8_t) (rest : List uint8_t)
    (hv : valid f) (hc : contents f = bs ++ rest) :
    (get_n f p bs.length).1 = bs.map (fun b => (FIFO_SUCCESS, b)) ∧
    valid (get_n f p bs.length).2 ∧
    contents (get_n f p bs.length).2 = rest ∧
    (get_n f p bs.length).2.p_buf = f.p_buf ∧
    (get_n f p bs.length).2.write_pos = f.write_pos ∧
    (get_n f p bs.length).2.buf_size_mask = f.buf_size_mask := by
  induction bs generalizing f p with
  | nil => simpa [get_n, hv] using hc
  | cons b bs ih =>
    have hne : fifo_length f ≠ 0 := by
      rw [← length_contents, hc]
      simp
    have hget := contents_fifo_get f hne
    rw [hc, List.cons_append, List.cons.injEq] at hget
    obtain ⟨i1, i2, i3, i4, i5, i6⟩ :=
      ih (fifo_get f).1 (fifo_get f).2 (valid_fifo_get f hv hne) hget.2.symm
    simp only [List.length_cons, get_n, app_fifo_get_of_ne f p hne, List.map_cons]
    exact ⟨by rw [i1, ← hget.1], i2, i3, i4, i5, i6⟩

theorem valid_app_fifo_init (p_fifo : app_fifo_t) (buf : List uint8_t) (C : Nat)
    (hC : ∃ k, C = 2 ^ k) (h16 : C < 2 ^ 16) (hbuf : C ≤ buf.length) :
    (app_fifo_init p_fifo (some buf) C).1 = FIFO_SUCCESS ∧
    valid (app_fifo_init p_fifo (some buf) C).2 ∧
    fifo_length (app_fifo_init p_fifo (some buf) C).2 = 0 ∧
    (app_fifo_init p_fifo (some buf) C).2.buf_size_mask + 1 = C := by
  have hp := (FIFO_IS_POWER_OF_TWO_iff C).2 hC
  have hpos : 0 < C := by
    obtain ⟨k, rfl⟩ := hC
    positivity
  have hm : (C - 1) % 2 ^ 16 = C - 1 := Nat.mod_eq_of_lt (by omega)
  have hs : C - 1 + 1 = C := by omega
  simp only [app_fifo_init, hp, Bool.not_true, Bool.false_eq_true, if_false, hm]
  refine ⟨trivial, ⟨?_, ?_, ?_, ?_, ?_, ?_⟩, ?_, hs⟩
  · show FIFO_IS_POWER_OF_TWO (C - 1 + 1) = true
    rw [hs]
    exact hp
  · show C - 1 < 2 ^ 16
    omega
  · show (0 : Nat) < 2 ^ 32
    decide
  · show (0 : Nat) < 2 ^ 32
    decide
  · simp [fifo_length_def]
  · show C - 1 < buf.length
    omega
  · simp [fifo_length_def]

/-! ## The loops of read and write end within their fuel -/

theorem read_loop_fuel (n extra : Nat) (f : app_fifo_t) (arr : List uint8_t)
    (index read_size : Nat) (h : read_size - index ≤ n) :
    read_loop (n + extra) f arr index read_size = read_loop n f arr index read_size := by
  induction n generalizing f arr index with
  | zero =>
    have hge : ¬ index < read_size := by omega
    cases extra with
    | zero => rfl
    | succ e => simp [read_loop, hge]
  | succ n ih =>
    rw [Nat.add_right_comm]
    unfold read_loop
    by_cases hlt : index < read_size
    · simp only [hlt, if_true]
      exact ih _ _ _ (by omega)
    · simp [hlt]

theorem write_loop_fuel (n extra : Nat) (f : app_fifo_t) (arr : List uint8_t)
    (index write_size : Nat) (h : write_size - index ≤ n) :
    write_loop (n + extra) f arr index write_size = write_loop n f arr index write_size := by
  induction n generalizing f index with
  | zero =>
    have hge : ¬ index < write_size := by omega
    cases extra with
    | zero => rfl
    | succ e => simp [write_loop, hge]
  | succ n ih =>
    rw [Nat.add_right_comm]
    unfold write_loop
    by_cases hlt : index < write_size
    · simp only [hlt, if_true]
      exact ih _ _ (by omega)
    · simp [hlt]

/-! ## The occupancy bound is kept by every operation -/

theorem read_loop_bound (fuel : Nat) (f : app_fifo_t) (arr : List uint8_t) (index read_size : Nat)
    (h : read_size - index ≤ fifo_length f) :
    (read_loop fuel f arr index read_size).1.buf_size_mask = f.buf_size_mask ∧
    fifo_length (read_loop fuel f arr index read_size).1 ≤ fifo_length f := by
  induction fuel generalizing f arr index with
  | zero => simp [read_loop]
  | succ fuel ih =>
    unfold read_loop
    by_cases hlt : index < read_size
    · have hne : fifo_length f ≠ 0 := by omega
      have hl := fifo_length_fifo_get f hne
      obtain ⟨i1, i2⟩ := ih (fifo_get f).1 (arr.set index (fifo_get f).2) (index + 1)
        (by rw [hl]; omega)
      simp only [hlt, if_true]
      refine ⟨i1, ?_⟩
      rw [hl] at i2
      omega
    · simp [hlt]

theorem write_loop_bound (fuel : Nat) (f : app_fifo_t) (arr : List uint8_t)
    (index write_size : Nat) (h16 : f.buf_size_mask < 2 ^ 16)
    (h : fifo_length f + (write_size - index) ≤ f.buf_size_mask + 1) :
    (write_loop fuel f arr index write_size).buf_size_mask = f.buf_size_mask ∧
    fifo_length (write_loop fuel f arr index write_size) ≤ f.buf_size_mask + 1 := by
  induction fuel generalizing f index with
  | zero =>
    simp only [write_loop, true_and]
    omega
  | succ fuel ih =>
    unfold write_loop
    by_cases hlt : index < write_size
    · have hl := fifo_length_fifo_put f (arr.getD index 0) h16 (by omega)
      have hm : (fifo_put f (arr.getD index 0)).buf_size_mask = f.buf_size_mask := rfl
      obtain ⟨i1, i2⟩ := ih (fifo_put f (arr.getD index 0)) (index + 1) (by rw [hm]; exact h16)
        (by rw [hl, hm]; omega)
      simp only [hlt, if_true]
      exact ⟨by rw [i1, hm], by rw [hm] at i2; exact i2⟩
    · simp only [hlt, if_false, true_and]
      omega

theorem FIFO_MIN_le_right (x y : Nat) : FIFO_MIN x y ≤ y := by
  unfold FIFO_MIN
  split <;> omega

theorem FIFO_MIN_le_left (x y : Nat) : FIFO_MIN x y ≤ x := by
  unfold FIFO_MIN
  split <;> omega

theorem step_bound (f : app_fifo_t) (op : Op) (h16 : f.buf_size_mask < 2 ^ 16)
    (hocc : fifo_length f ≤ f.buf_size_mask + 1) :
    (step f op).buf_size_mask = f.buf_size_mask ∧
    fifo_length (step f op) ≤ f.buf_size_mask + 1 := by
  cases op with
  | put byte =>
    by_cases hroom : fifo_length f ≤ f.buf_size_mask
    · simp only [step, app_fifo_put_of_room f byte hroom]
      refine ⟨rfl, ?_⟩
      rw [fifo_length_fifo_put f byte h16 hroom]
      omega
    · simp only [step, app_fifo_put_of_full f byte hroom]
      exact ⟨trivial, hocc⟩
  | get p_byte =>
    by_cases hne : fifo_length f = 0
    · simp only [step, app_fifo_get_of_empty f p_byte hne]
      exact ⟨trivial, hocc⟩
    · simp only [step, app_fifo_get_of_ne f p_byte hne]
      refine ⟨rfl, ?_⟩
      rw [fifo_length_fifo_get f hne]
      omega
  | peek index p_byte =>
    simp only [step, app_fifo_peek]
    split <;> exact ⟨rfl, hocc⟩
  | flush =>
    simp only [step, app_fifo_flush, fifo_length_def, true_and]
    omega
  | read p_byte_array p_size =>
    cases p_size with
    | none => exact ⟨rfl, hocc⟩
    | some size =>
      simp only [step, app_fifo_read]
      by_cases hz : fifo_length f = 0
      · simp only [hz, if_true, Option.getD_some]
        exact ⟨trivial, by omega⟩
      · cases p_byte_array with
        | none =>
          simp only [hz, if_false, Option.getD_some]
          exact ⟨trivial, hocc⟩
        | some arr =>
          simp only [hz, if_false, Option.getD_some]
          obtain ⟨i1, i2⟩ := read_loop_bound (FIFO_MIN size (fifo_length f)) f arr 0
            (FIFO_MIN size (fifo_length f)) (by simpa using FIFO_MIN_le_right _ _)
          exact ⟨i1, by omega⟩
  | write p_byte_array p_size =>
    cases p_size with
    | none => exact ⟨rfl, hocc⟩
    | some size =>
      simp only [step, app_fifo_write]
      by_cases hz : (sub32 f.buf_size_mask (fifo_length f) + 1) % 2 ^ 32 = 0
      · simp only [hz, if_true, Option.getD_some]
        exact ⟨trivial, hocc⟩
      · cases p_byte_array with
        | none =>
          simp only [hz, if_false, Option.getD_some]
          exact ⟨trivial, hocc⟩
        | some arr =>
          simp only [hz, if_false, Option.getD_some]
          have hmin := FIFO_MIN_le_right size ((sub32 f.buf_size_mask (fifo_length f) + 1) % 2 ^ 32)
          apply write_loop_bound _ f arr 0 _ h16
          simp only [sub32] at hmin hz ⊢
          have hlt := fifo_length_lt f
          omega

theorem run_bound (ops : List Op) (f : app_fifo_t) (h16 : f.buf_size_mask < 2 ^ 16)
    (hocc : fifo_length f ≤ f.buf_size_mask + 1) :
    (run f ops).buf_size_mask = f.buf_size_mask ∧
    fifo_length (run f ops) ≤ f.buf_size_mask + 1 := by
  induction ops generalizing f with
  | nil => exact ⟨rfl, hocc⟩
  | cons op ops ih =>
    obtain ⟨s1, s2⟩ := step_bound f op h16 hocc
    obtain ⟨i1, i2⟩ := ih (step f op) (by rw [s1]; exact h16) (by rw [s1]; exact s2)
    simp only [run, List.foldl_cons] at *
    exact ⟨by rw [i1, s1], by rw [s1] at i2; exact i2⟩

theorem run_running_count (C : Nat) (ops : List Op) (f : app_fifo_t)
    (hops : ∀ op ∈ ops, (op.isPut || op.isGet) = true) (h16 : f.buf_size_mask < 2 ^ 16)
    (hC : f.buf_size_mask + 1 = C) :
    fifo_length (run f ops) = ops.foldl (running_count C) (fifo_length f) := by
  induction ops generalizing f with
  | nil => rfl
  | cons op ops ih =>
    have hrest : ∀ o ∈ ops, (o.isPut || o.isGet) = true :=
      fun o ho => hops o (List.mem_cons_of_mem _ ho)
    have hop := hops op (List.mem_cons_self _ _)
    simp only [run, List.foldl_cons]
    cases op with
    | put byte =>
      by_cases hroom : fifo_length f ≤ f.buf_size_mask
      · have e := ih (fifo_put f byte) hrest h16 hC
        simp only [run] at e
        simp only [step, app_fifo_put_of_room f byte hroom, running_count]
        rw [e, fifo_length_fifo_put f byte h16 hroom, if_pos (by omega)]
      · have e := ih f hrest h16 hC
        simp only [run] at e
        simp only [step, app_fifo_put_of_full f byte hroom, running_count]
        rw [e, if_neg (by omega)]
    | get p_byte =>
      by_cases hne : fifo_length f = 0
      · have e := ih f hrest h16 hC
        simp only [run] at e
        simp only [step, app_fifo_get_of_empty f p_byte hne, running_count]
        rw [e, hne]
      · have e := ih (fifo_get f).1 hrest h16 hC
        simp only [run] at e
        simp only [step, app_fifo_get_of_ne f p_byte hne, running_count]
        rw [e, fifo_length_fifo_get f hne]
    | peek index p_byte => simp [Op.isPut, Op.isGet] at hop
    | flush => simp [Op.isPut, Op.isGet] at hop
    | read p_byte_array p_size => simp [Op.isPut, Op.isGet] at hop
    | write p_byte_array p_size => simp [Op.isPut, Op.isGet] at hop

theorem run_peeks (f : app_fifo_t) (peeks : List (Nat × uint8_t)) :
    run f (peeks.map (fun a => Op.peek a.1 a.2)) = f := by
  induction peeks with
  | nil => rfl
  | cons a peeks ih =>
    have hstep : step f (Op.peek a.1 a.2) = f := by
      simp only [step, app_fifo_peek]
      split <;> rfl
    simp only [run, List.map_cons, List.foldl_cons, hstep]
    exact ih

theorem valid_app_fifo_flush (f : app_fifo_t) (hv : valid f) :
    valid (app_fifo_flush f).2 ∧ fifo_length (app_fifo_flush f).2 = 0 := by
  obtain ⟨hp, h16, hr, hw, hocc, hbuf⟩ := hv
  have hz : fifo_length (app_fifo_flush f).2 = 0 := by
    simp only [app_fifo_flush, fifo_length_def]
    omega
  exact ⟨⟨hp, h16, hw, hw, by rw [hz]; exact Nat.zero_le _, hbuf⟩, hz⟩

/-! ## Initialisation -/

/-- C1: with a non-null buffer and a 16-bit `buf_size`, `app_fifo_init` returns
`FIFO_ERROR_INVALID_LENGTH` exactly when `buf_size` is not a power of two (zero included), and
otherwise returns `FIFO_SUCCESS` with both counters zero and `buf_size_mask = buf_size - 1`;
sizes 0, 3, 5, 100 are rejected and sizes 1, 2, 4, 256 are accepted. -/
theorem app_fifo_init_power_of_two (p_fifo : app_fifo_t) (buf : List uint8_t) (buf_size : Nat)
    (h16 : buf_size < 2 ^ 16) :
    ((app_fifo_init p_fifo (some buf) buf_size).1 = FIFO_ERROR_INVALID_LENGTH ↔
      ¬ ∃ k, buf_size = 2 ^ k) ∧
    ((∃ k, buf_size = 2 ^ k) →
      app_fifo_init p_fifo (some buf) buf_size =
        (FIFO_SUCCESS,
          { p_buf := buf, buf_size_mask := buf_size - 1, read_pos := 0, write_pos := 0 })) ∧
    (∀ n ∈ [0, 3, 5, 100], (app_fifo_init p_fifo (some buf) n).1 = FIFO_ERROR_INVALID_LENGTH) ∧
    (∀ n ∈ [1, 2, 4, 256], (app_fifo_init p_fifo (some buf) n).1 = FIFO_SUCCESS) := by
  refine ⟨?_, ?_, ?_, ?_⟩
  · rw [← FIFO_IS_POWER_OF_TWO_iff]
    unfold app_fifo_init
    cases h : FIFO_IS_POWER_OF_TWO buf_size <;> simp [FIFO_ERROR_INVALID_LENGTH, FIFO_SUCCESS]
  · intro hk
    have hp := (FIFO_IS_POWER_OF_TWO_iff buf_size).2 hk
    simp [app_fifo_init, hp]
    omega
  · intro n hn
    simp only [List.mem_cons, List.mem_singleton, List.not_mem_nil, or_false] at hn
    rcases hn with rfl | rfl | rfl | rfl <;> rfl
  · intro n hn
    simp only [List.mem_cons, List.mem_singleton, List.not_mem_nil, or_false] at hn
    rcases hn with rfl | rfl | rfl | rfl <;> rfl

theorem app_fifo_init_power_of_two_witness :
    (4 : Nat) < 2 ^ 16 ∧
    app_fifo_init ⟨[], 0, 0, 0⟩ (some [7, 7, 7, 7]) 4 =
      (FIFO_SUCCESS, { p_buf := [7, 7, 7, 7], buf_size_mask := 3, read_pos := 0, write_pos := 0 }) :=
  ⟨by decide,
    (app_fifo_init_power_of_two ⟨[], 0, 0, 0⟩ [7, 7, 7, 7] 4 (by decide)).2.1 ⟨2, rfl⟩⟩

/-- C2: with a null buffer pointer `app_fifo_init` returns the constant `NULL`, which is zero
and so equals `FIFO_SUCCESS`, not `FIFO_ERROR_NULL`; it leaves the FIFO structure as it was. -/
theorem app_fifo_init_null_buffer (p_fifo : app_fifo_t) (buf_size : Nat) :
    app_fifo_init p_fifo none buf_size = (FIFO_SUCCESS, p_fifo) ∧
    (app_fifo_init p_fifo none buf_size).1 ≠ FIFO_ERROR_NULL := by
  constructor
  · rfl
  · simp [app_fifo_init, NULL, FIFO_ERROR_NULL, FIFO_ERROR_BASE_NUM]

/-! ## Ordering and the full / empty boundary -/

/-- C3: on a FIFO freshly initialised with a power-of-two capacity `C` over a buffer of at least
`C` bytes, `N ≤ C` calls `app_fifo_put(b_1) .. app_fifo_put(b_N)` all return `FIFO_SUCCESS`, and
the following `N` calls of `app_fifo_get` all return `FIFO_SUCCESS` and yield `b_1 .. b_N` in
that order. -/
theorem fifo_ordering (p_fifo : app_fifo_t) (buf : List uint8_t) (C : Nat) (bs : List uint8_t)
    (p_byte : uint8_t) (hC : ∃ k, C = 2 ^ k) (h16 : C < 2 ^ 16) (hbuf : C ≤ buf.length)
    (hN : bs.length ≤ C) :
    (app_fifo_init p_fifo (some buf) C).1 = FIFO_SUCCESS ∧
    (put_all (app_fifo_init p_fifo (some buf) C).2 bs).1 =
      List.replicate bs.length FIFO_SUCCESS ∧
    (get_n (put_all (app_fifo_init p_fifo (some buf) C).2 bs).2 p_byte bs.length).1 =
      bs.map (fun b => (FIFO_SUCCESS, b)) := by
  obtain ⟨h0, hv, hl, hm⟩ := valid_app_fifo_init p_fifo buf C hC h16 hbuf
  obtain ⟨i1, i2, i3, _⟩ :=
    put_all_spec bs (app_fifo_init p_fifo (some buf) C).2 hv (by rw [hl, hm]; omega)
  have hnil : contents (app_fifo_init p_fifo (some buf) C).2 = [] := by
    apply List.eq_nil_of_length_eq_zero
    rw [length_contents, hl]
  rw [hnil, List.nil_append] at i3
  exact ⟨h0, i1, (get_n_spec bs _ p_byte [] i2 (by rw [i3, List.append_nil])).1⟩

theorem fifo_ordering_witness :
    (2 : Nat) ≤ 4 ∧
    (get_n (put_all (app_fifo_init ⟨[], 0, 0, 0⟩ (some [0, 0, 0, 0]) 4).2 [10, 20]).2 0 2).1 =
      [(FIFO_SUCCESS, 10), (FIFO_SUCCESS, 20)] :=
  ⟨by decide,
    (fifo_ordering ⟨[], 0, 0, 0⟩ [0, 0, 0, 0] 4 [10, 20] 0 ⟨2, rfl⟩ (by decide) (by decide)
      (by decide)).2.2⟩

/-- C4: on a FIFO freshly initialised with a power-of-two capacity `C`, `C` successive calls of
`app_fifo_put` return `FIFO_SUCCESS` and the next one returns `FIFO_ERROR_NO_MEM`; on every FIFO
whose occupancy is zero `app_fifo_get` returns `FIFO_ERROR_NOT_FOUND`. -/
theorem full_empty_boundary (p_fifo : app_fifo_t) (buf : List uint8_t) (C : Nat)
    (bs : List uint8_t) (b : uint8_t) (hC : ∃ k, C = 2 ^ k) (h16 : C < 2 ^ 16)
    (hbuf : C ≤ buf.length) (hN : bs.length = C) :
    (put_all (app_fifo_init p_fifo (some buf) C).2 (bs ++ [b])).1 =
      List.replicate C FIFO_SUCCESS ++ [FIFO_ERROR_NO_MEM] ∧
    ∀ (f : app_fifo_t) (p_byte : uint8_t), fifo_length f = 0 →
      (app_fifo_get f p_byte).1 = FIFO_ERROR_NOT_FOUND := by
  constructor
  · obtain ⟨_, hv, hl, hm⟩ := valid_app_fifo_init p_fifo buf C hC h16 hbuf
    obtain ⟨i1, _, i3, i4⟩ :=
      put_all_spec bs (app_fifo_init p_fifo (some buf) C).2 hv (by rw [hl, hm]; omega)
    have hfull : ¬ fifo_length (put_all (app_fifo_init p_fifo (some buf) C).2 bs).2 ≤
        (put_all (app_fifo_init p_fifo (some buf) C).2 bs).2.buf_size_mask := by
      rw [← length_contents, i3, i4, List.length_append, length_contents, hl]
      omega
    rw [put_all_append, i1, hN]
    simp [put_all, app_fifo_put_of_full _ b hfull]
  · intro f p_byte he
    rw [app_fifo_get_of_empty f p_byte he]

theorem full_empty_boundary_witness :
    ([1, 2] : List uint8_t).length = 2 ∧
    (put_all (app_fifo_init ⟨[], 0, 0, 0⟩ (some [0, 0]) 2).2 ([1, 2] ++ [3])).1 =
      [FIFO_SUCCESS, FIFO_SUCCESS, FIFO_ERROR_NO_MEM] ∧
    (app_fifo_get ⟨[0, 0], 1, 5, 5⟩ 9).1 = FIFO_ERROR_NOT_FOUND :=
  ⟨rfl,
    (full_empty_boundary ⟨[], 0, 0, 0⟩ [0, 0] 2 [1, 2] 3 ⟨1, rfl⟩ (by decide) (by decide) rfl).1,
    (full_empty_boundary ⟨[], 0, 0, 0⟩ [0, 0] 2 [1, 2] 3 ⟨1, rfl⟩ (by decide) (by decide) rfl).2
      ⟨[0, 0], 1, 5, 5⟩ 9 (by decide)⟩

/-! ## Occupancy -/

/-- C5: in every state reached from a successful `app_fifo_init` (non-null buffer, 16-bit
`buf_size`) by any finite sequence of put, get, peek, flush, read and write calls, the capacity
`buf_size_mask + 1` is still `buf_size` and the occupancy `(write_pos - read_pos) mod 2^32` is
at most the capacity. -/
theorem occupancy_invariant (p_fifo : app_fifo_t) (buf : List uint8_t) (buf_size : Nat)
    (ops : List Op) (h16 : buf_size < 2 ^ 16)
    (hinit : (app_fifo_init p_fifo (some buf) buf_size).1 = FIFO_SUCCESS) :
    (run (app_fifo_init p_fifo (some buf) buf_size).2 ops).buf_size_mask + 1 = buf_size ∧
    fifo_length (run (app_fifo_init p_fifo (some buf) buf_size).2 ops) ≤
      (run (app_fifo_init p_fifo (some buf) buf_size).2 ops).buf_size_mask + 1 := by
  have hp : FIFO_IS_POWER_OF_TWO buf_size = true := by
    cases h : FIFO_IS_POWER_OF_TWO buf_size
    · simp [app_fifo_init, h, FIFO_ERROR_INVALID_LENGTH, FIFO_SUCCESS] at hinit
    · rfl
  have hpos : buf_size ≠ 0 := by
    intro h0
    rw [h0] at hp
    exact absurd hp (by decide)
  have hs : app_fifo_init p_fifo (some buf) buf_size =
      (FIFO_SUCCESS, ⟨buf, buf_size - 1, 0, 0⟩) := by
    simp [app_fifo_init, hp]
    omega
  rw [hs]
  obtain ⟨i1, i2⟩ := run_bound ops ⟨buf, buf_size - 1, 0, 0⟩
    (by show buf_size - 1 < 2 ^ 16; omega) (by simp [fifo_length_def])
  rw [i1]
  exact ⟨by show buf_size - 1 + 1 = buf_size; omega, i2⟩

theorem occupancy_invariant_witness :
    (app_fifo_init ⟨[], 0, 0, 0⟩ (some [0, 0, 0, 0]) 4).1 = FIFO_SUCCESS ∧
    fifo_length (run (app_fifo_init ⟨[], 0, 0, 0⟩ (some [0, 0, 0, 0]) 4).2
      [Op.put 1, Op.write (some [2, 3, 4, 5, 6]) (some 5), Op.get 0, Op.peek 1 0,
        Op.read (some [0, 0]) (some 2), Op.flush]) ≤ 4 :=
  ⟨rfl,
    (occupancy_invariant ⟨[], 0, 0, 0⟩ [0, 0, 0, 0] 4
      [Op.put 1, Op.write (some [2, 3, 4, 5, 6]) (some 5), Op.get 0, Op.peek 1 0,
        Op.read (some [0, 0]) (some 2), Op.flush] (by decide) rfl).2⟩

/-- C6 as stated fails: with capacity 1, the calls get, put leave occupancy 1, while the number
of puts issued minus the number of gets issued, clamped to `[0, 1]`, is 0. -/
theorem occupancy_clamped_difference_counterexample :
    (∀ op ∈ [Op.get 0, Op.put 7], (op.isPut || op.isGet) = true) ∧
    fifo_length (run (app_fifo_init ⟨[], 0, 0, 0⟩ (some [0]) 1).2 [Op.get 0, Op.put 7]) = 1 ∧
    clamp 1 (([Op.get 0, Op.put 7].countP Op.isPut : Int) -
      ([Op.get 0, Op.put 7].countP Op.isGet : Int)) = 0 ∧
    fifo_length (run (app_fifo_init ⟨[], 0, 0, 0⟩ (some [0]) 1).2 [Op.get 0, Op.put 7]) ≠
      clamp 1 (([Op.get 0, Op.put 7].countP Op.isPut : Int) -
        ([Op.get 0, Op.put 7].countP Op.isGet : Int)) := by
  refine ⟨by decide, by rfl, by rfl, ?_⟩
  have h1 : fifo_length (run (app_fifo_init ⟨[], 0, 0, 0⟩ (some [0]) 1).2
      [Op.get 0, Op.put 7]) = 1 := by rfl
  have h2 : clamp 1 (([Op.get 0, Op.put 7].countP Op.isPut : Int) -
      ([Op.get 0, Op.put 7].countP Op.isGet : Int)) = 0 := by rfl
  rw [h1, h2]
  decide

/-- C6 amended: for a power-of-two capacity `C` and every finite sequence of `app_fifo_put` and
`app_fifo_get` calls on a freshly initialised FIFO, the occupancy equals the count kept call by
call from zero, where a put adds one unless the count is already `C` and a get takes one away
unless the count is already zero (the clamp to `[0, C]` is applied after every call). -/
theorem occupancy_running_count (p_fifo : app_fifo_t) (buf : List uint8_t) (C : Nat)
    (ops : List Op) (hC : ∃ k, C = 2 ^ k) (h16 : C < 2 ^ 16)
    (hops : ∀ op ∈ ops, (op.isPut || op.isGet) = true) :
    fifo_length (run (app_fifo_init p_fifo (some buf) C).2 ops) =
      ops.foldl (running_count C) 0 := by
  have hp := (FIFO_IS_POWER_OF_TWO_iff C).2 hC
  have hpos : 0 < C := by
    obtain ⟨k, rfl⟩ := hC
    positivity
  have hs : app_fifo_init p_fifo (some buf) C = (FIFO_SUCCESS, ⟨buf, C - 1, 0, 0⟩) := by
    simp [app_fifo_init, hp]
    omega
  rw [hs]
  have h := run_running_count C ops ⟨buf, C - 1, 0, 0⟩ hops
    (by show C - 1 < 2 ^ 16; omega) (by show C - 1 + 1 = C; omega)
  have hz : fifo_length ⟨buf, C - 1, 0, 0⟩ = 0 := by simp [fifo_length_def]
  rw [h, hz]

theorem occupancy_running_count_witness :
    (∀ op ∈ [Op.get 0, Op.put 7, Op.put 8, Op.put 9, Op.get 0],
      (op.isPut || op.isGet) = true) ∧
    fifo_length (run (app_fifo_init ⟨[], 0, 0, 0⟩ (some [0, 0]) 2).2
      [Op.get 0, Op.put 7, Op.put 8, Op.put 9, Op.get 0]) = 1 :=
  ⟨by decide,
    occupancy_running_count ⟨[], 0, 0, 0⟩ [0, 0] 2
      [Op.get 0, Op.put 7, Op.put 8, Op.put 9, Op.get 0] ⟨1, rfl⟩ (by decide) (by decide)⟩

/-! ## Failure paths and peek leave the FIFO as it was -/

/-- C7: whenever `app_fifo_put` returns `FIFO_ERROR_NO_MEM`, `app_fifo_get`, `app_fifo_peek` or
`app_fifo_read` returns `FIFO_ERROR_NOT_FOUND`, or `app_fifo_write` returns `FIFO_ERROR_NO_MEM`,
the FIFO after the call (counters, mask and every byte of the backing array) is the FIFO before
it. -/
theorem failure_leaves_fifo_unchanged (f : app_fifo_t) :
    (∀ byte, (app_fifo_put f byte).1 = FIFO_ERROR_NO_MEM → (app_fifo_put f byte).2 = f) ∧
    (∀ p_byte, (app_fifo_get f p_byte).1 = FIFO_ERROR_NOT_FOUND →
      (app_fifo_get f p_byte).2.1 = f) ∧
    (∀ index p_byte, (app_fifo_peek f index p_byte).1 = FIFO_ERROR_NOT_FOUND →
      (app_fifo_peek f index p_byte).2.1 = f) ∧
    (∀ p_byte_array p_size,
      (app_fifo_read (some f) p_byte_array p_size).1 = FIFO_ERROR_NOT_FOUND →
      (app_fifo_read (some f) p_byte_array p_size).2.1 = some f) ∧
    (∀ p_byte_array p_size,
      (app_fifo_write (some f) p_byte_array p_size).1 = FIFO_ERROR_NO_MEM →
      (app_fifo_write (some f) p_byte_array p_size).2.1 = some f) := by
  refine ⟨?_, ?_, ?_, ?_, ?_⟩
  · intro byte h
    unfold app_fifo_put at h ⊢
    split at h
    · simp [FIFO_SUCCESS, FIFO_ERROR_NO_MEM, FIFO_ERROR_BASE_NUM] at h
    · rw [if_neg (by assumption)]
  · intro p_byte h
    unfold app_fifo_get at h ⊢
    split at h
    · simp [FIFO_SUCCESS, FIFO_ERROR_NOT_FOUND, FIFO_ERROR_BASE_NUM] at h
    · rw [if_neg (by assumption)]
  · intro index p_byte _
    unfold app_fifo_peek
    split <;> rfl
  · intro p_byte_array p_size h
    cases p_size with
    | none => rfl
    | some size =>
      simp only [app_fifo_read] at h ⊢
      split at h
      · rw [if_pos (by assumption)]
      · cases p_byte_array <;>
          simp [FIFO_SUCCESS, FIFO_ERROR_NOT_FOUND, FIFO_ERROR_BASE_NUM] at h
  · intro p_byte_array p_size h
    cases p_size with
    | none => rfl
    | some size =>
      simp only [app_fifo_write] at h ⊢
      split at h
      · rw [if_pos (by assumption)]
      · cases p_byte_array <;>
          simp [FIFO_SUCCESS, FIFO_ERROR_NO_MEM, FIFO_ERROR_BASE_NUM] at h

theorem failure_leaves_fifo_unchanged_witness :
    (app_fifo_put ⟨[1, 2], 1, 0, 2⟩ 9).2 = ⟨[1, 2], 1, 0, 2⟩ ∧
    (app_fifo_get ⟨[1, 2], 1, 3, 3⟩ 9).2.1 = ⟨[1, 2], 1, 3, 3⟩ ∧
    (app_fifo_peek ⟨[1, 2], 1, 3, 4⟩ 1 9).2.1 = ⟨[1, 2], 1, 3, 4⟩ ∧
    (app_fifo_read (some ⟨[1, 2], 1, 3, 3⟩) (some [0, 0]) (some 2)).2.1 =
      some ⟨[1, 2], 1, 3, 3⟩ ∧
    (app_fifo_write (some ⟨[1, 2], 1, 0, 2⟩) (some [5, 6]) (some 2)).2.1 =
      some ⟨[1, 2], 1, 0, 2⟩ :=
  ⟨(failure_leaves_fifo_unchanged ⟨[1, 2], 1, 0, 2⟩).1 9 (by decide),
    (failure_leaves_fifo_unchanged ⟨[1, 2], 1, 3, 3⟩).2.1 9 (by decide),
    (failure_leaves_fifo_unchanged ⟨[1, 2], 1, 3, 4⟩).2.2.1 1 9 (by decide),
    (failure_leaves_fifo_unchanged ⟨[1, 2], 1, 3, 3⟩).2.2.2.1 (some [0, 0]) (some 2) (by decide),
    (failure_leaves_fifo_unchanged ⟨[1, 2], 1, 0, 2⟩).2.2.2.2 (some [5, 6]) (some 2)
      (by decide)⟩

/-- C8: `app_fifo_peek`, whether it succeeds or fails, leaves the counters, the mask and the
backing array as they were; hence after any number of `app_fifo_peek` calls the next
`app_fifo_get` returns the status, leaves the FIFO and, when it succeeds, yields the byte that
it would have without them, whatever the output variable held before. -/
theorem peek_non_mutation (f : app_fifo_t) :
    (∀ index p_byte, (app_fifo_peek f index p_byte).2.1 = f) ∧
    ∀ (peeks : List (Nat × uint8_t)) (q q' : uint8_t),
      (app_fifo_get (run f (peeks.map (fun a => Op.peek a.1 a.2))) q).1 =
        (app_fifo_get f q').1 ∧
      (app_fifo_get (run f (peeks.map (fun a => Op.peek a.1 a.2))) q).2.1 =
        (app_fifo_get f q').2.1 ∧
      ((app_fifo_get f q').1 = FIFO_SUCCESS →
        (app_fifo_get (run f (peeks.map (fun a => Op.peek a.1 a.2))) q).2.2 =
          (app_fifo_get f q').2.2) := by
  constructor
  · intro index p_byte
    unfold app_fifo_peek
    split <;> rfl
  · intro peeks q q'
    rw [run_peeks]
    by_cases hne : fifo_length f = 0
    · rw [app_fifo_get_of_empty f q hne, app_fifo_get_of_empty f q' hne]
      refine ⟨rfl, rfl, ?_⟩
      intro h
      simp [FIFO_SUCCESS, FIFO_ERROR_NOT_FOUND, FIFO_ERROR_BASE_NUM] at h
    · rw [app_fifo_get_of_ne f q hne, app_fifo_get_of_ne f q' hne]
      exact ⟨rfl, rfl, fun _ => rfl⟩

theorem peek_non_mutation_witness :
    (app_fifo_get ⟨[5, 6], 1, 0, 2⟩ 0).1 = FIFO_SUCCESS ∧
    (app_fifo_get (run ⟨[5, 6], 1, 0, 2⟩
      ([(1, 0), (0, 3), (7, 4)].map (fun a => Op.peek a.1 a.2))) 6).2.2 =
      (app_fifo_get ⟨[5, 6], 1, 0, 2⟩ 0).2.2 :=
  ⟨by decide,
    ((peek_non_mutation ⟨[5, 6], 1, 0, 2⟩).2 [(1, 0), (0, 3), (7, 4)] 6 0).2.2 (by decide)⟩

/-! ## Peek and flush on a valid FIFO -/

/-- C9: on a valid FIFO `app_fifo_peek` at index `i` returns `FIFO_SUCCESS` exactly when
`i` is below the occupancy and `FIFO_ERROR_NOT_FOUND` otherwise; when it succeeds, `i + 1`
successive `app_fifo_get` calls from the same state all succeed and the last of them yields
the byte that the peek yields, so the peek at index 0 yields the byte of the next get. -/
theorem peek_indexes_from_oldest (f : app_fifo_t) (i : Nat) (p_byte q : uint8_t)
    (hv : valid f) :
    ((app_fifo_peek f i p_byte).1 = FIFO_SUCCESS ↔ i < fifo_length f) ∧
    (¬ i < fifo_length f → (app_fifo_peek f i p_byte).1 = FIFO_ERROR_NOT_FOUND) ∧
    (i < fifo_length f →
      (get_n f q (i + 1)).1.map Prod.fst = List.replicate (i + 1) FIFO_SUCCESS ∧
      (get_n f q (i + 1)).1[i]? = some (FIFO_SUCCESS, (app_fifo_peek f i p_byte).2.2)) ∧
    (0 < fifo_length f → (app_fifo_get f q).2.2 = (app_fifo_peek f 0 p_byte).2.2) := by
  refine ⟨?_, ?_, ?_, ?_⟩
  · unfold app_fifo_peek
    split
    · simpa using (by assumption : fifo_length f > i)
    · simp only [FIFO_SUCCESS, FIFO_ERROR_NOT_FOUND, FIFO_ERROR_BASE_NUM]
      constructor
      · intro h
        exact absurd h (by decide)
      · intro h
        exact absurd h (by assumption)
  · intro h
    unfold app_fifo_peek
    rw [if_neg h]
  · intro hi
    have hlen : (List.take (i + 1) (contents f)).length = i + 1 := by
      rw [List.length_take, length_contents]
      omega
    have hspec := (get_n_spec (List.take (i + 1) (contents f)) f q
      (List.drop (i + 1) (contents f)) hv (List.take_append_drop _ _).symm).1
    rw [hlen] at hspec
    have hpk : (app_fifo_peek f i p_byte).2.2 = fifo_peek f i := by
      unfold app_fifo_peek
      rw [if_pos hi]
    rw [hspec, hpk]
    constructor
    · rw [List.map_map, List.eq_replicate_iff]
      refine ⟨by rw [List.length_map, hlen], ?_⟩
      intro x hx
      obtain ⟨_, _, rfl⟩ := List.mem_map.1 hx
      rfl
    · rw [List.getElem?_map, List.getElem?_take_of_lt (by omega)]
      simp [contents, hi]
  · intro h0
    rw [app_fifo_get_of_ne f q (by omega)]
    unfold app_fifo_peek
    rw [if_pos h0]
    rfl

theorem peek_indexes_from_oldest_witness :
    valid ⟨[5, 6, 7, 8], 3, 4294967295, 2⟩ ∧
    (get_n ⟨[5, 6, 7, 8], 3, 4294967295, 2⟩ 0 3).1[2]? =
      some (FIFO_SUCCESS, (app_fifo_peek ⟨[5, 6, 7, 8], 3, 4294967295, 2⟩ 2 0).2.2) :=
  ⟨by decide,
    ((peek_indexes_from_oldest ⟨[5, 6, 7, 8], 3, 4294967295, 2⟩ 2 0 0 (by decide)).2.2.1
      (by decide)).2⟩

/-- C10: on a valid FIFO `app_fifo_flush` returns `FIFO_SUCCESS`, leaves `write_pos`,
`buf_size_mask` and the backing array as they were and makes the occupancy zero, so that
`app_fifo_get` returns `FIFO_ERROR_NOT_FOUND`; a following `app_fifo_put` of any byte succeeds,
the next `app_fifo_get` succeeds and yields that byte, and the FIFO is then empty again. -/
theorem flush_then_put_get (f : app_fifo_t) (byte p_byte : uint8_t) (hv : valid f) :
    (app_fifo_flush f).1 = FIFO_SUCCESS ∧
    (app_fifo_flush f).2.write_pos = f.write_pos ∧
    (app_fifo_flush f).2.buf_size_mask = f.buf_size_mask ∧
    (app_fifo_flush f).2.p_buf = f.p_buf ∧
    fifo_length (app_fifo_flush f).2 = 0 ∧
    (app_fifo_get (app_fifo_flush f).2 p_byte).1 = FIFO_ERROR_NOT_FOUND ∧
    (app_fifo_put (app_fifo_flush f).2 byte).1 = FIFO_SUCCESS ∧
    (app_fifo_get (app_fifo_put (app_fifo_flush f).2 byte).2 p_byte).1 = FIFO_SUCCESS ∧
    (app_fifo_get (app_fifo_put (app_fifo_flush f).2 byte).2 p_byte).2.2 = byte ∧
    fifo_length (app_fifo_get (app_fifo_put (app_fifo_flush f).2 byte).2 p_byte).2.1 = 0 := by
  obtain ⟨hvf, hz⟩ := valid_app_fifo_flush f hv
  have hroom : fifo_length (app_fifo_flush f).2 ≤ (app_fifo_flush f).2.buf_size_mask := by
    rw [hz]
    exact Nat.zero_le _
  have hput := app_fifo_put_of_room (app_fifo_flush f).2 byte hroom
  have hlp := fifo_length_fifo_put (app_fifo_flush f).2 byte hvf.2.1 hroom
  have hcp := contents_fifo_put (app_fifo_flush f).2 byte hvf hroom
  have hnil : contents (app_fifo_flush f).2 = [] := by
    apply List.eq_nil_of_length_eq_zero
    rw [length_contents, hz]
  rw [hnil, List.nil_append] at hcp
  have hne : fifo_length (fifo_put (app_fifo_flush f).2 byte) ≠ 0 := by
    rw [hlp]
    omega
  have hcg := contents_fifo_get (fifo_put (app_fifo_flush f).2 byte) hne
  rw [hcp, List.cons.injEq] at hcg
  have hlg := fifo_length_fifo_get (fifo_put (app_fifo_flush f).2 byte) hne
  refine ⟨rfl, rfl, rfl, rfl, hz, ?_, ?_, ?_, ?_, ?_⟩
  · rw [app_fifo_get_of_empty _ p_byte hz]
  · rw [hput]
  · rw [hput, app_fifo_get_of_ne _ p_byte hne]
  · rw [hput, app_fifo_get_of_ne _ p_byte hne]
    exact hcg.1.symm
  · rw [hput, app_fifo_get_of_ne _ p_byte hne, hlg, hlp, hz]

theorem flush_then_put_get_witness :
    valid ⟨[5, 6, 7, 8], 3, 4294967294, 1⟩ ∧
    (app_fifo_get (app_fifo_put (app_fifo_flush ⟨[5, 6, 7, 8], 3, 4294967294, 1⟩).2 42).2
      0).2.2 = 42 :=
  ⟨by decide,
    (flush_then_put_get ⟨[5, 6, 7, 8], 3, 4294967294, 1⟩ 42 0 (by decide)).2.2.2.2.2.2.2.2.1⟩

/-! ## Bulk transfer: the loops of read and write on a valid FIFO -/

theorem FIFO_MIN_eq_min (x y : Nat) : FIFO_MIN x y = min x y := by
  unfold FIFO_MIN
  split <;> omega

/-- On a valid FIFO the room computed by `app_fifo_write` is the capacity less the occupancy. -/
theorem available_count_eq (f : app_fifo_t) (hv : valid f) :
    (sub32 f.buf_size_mask (fifo_length f) + 1) % 2 ^ 32 =
      f.buf_size_mask + 1 - fifo_length f := by
  obtain ⟨_, h16, _, _, hocc, _⟩ := hv
  unfold sub32
  omega

theorem take_succ_set (l : List uint8_t) (i : Nat) (a : uint8_t) (h : i < l.length) :
    (l.set i a).take (i + 1) = l.take i ++ [a] := by
  induction l generalizing i with
  | nil => simp at h
  | cons x xs ih =>
    cases i with
    | zero => simp
    | succ j =>
      simp only [List.length_cons, Nat.add_lt_add_iff_right] at h
      simp [ih j h]

theorem write_loop_spec (fuel : Nat) (f : app_fifo_t) (src : List uint8_t)
    (index write_size : Nat) (hv : valid f) (hidx : index + fuel = write_size)
    (hsrc : write_size ≤ src.length)
    (hroom : fifo_length f + fuel ≤ f.buf_size_mask + 1) :
    valid (write_loop fuel f src index write_size) ∧
    contents (write_loop fuel f src index write_size) =
      contents f ++ (src.drop index).take fuel ∧
    (write_loop fuel f src index write_size).read_pos = f.read_pos ∧
    (write_loop fuel f src index write_size).buf_size_mask = f.buf_size_mask := by
  induction fuel generalizing f index with
  | zero => simp [write_loop, hv]
  | succ fuel ih =>
    have hlt : index < write_size := by omega
    have hin : index < src.length := by omega
    have h1 : fifo_length f ≤ f.buf_size_mask := by omega
    have hb : src.getD index 0 = src[index] := by
      simp [List.getD_eq_getElem?_getD, List.getElem?_eq_getElem hin]
    have hv1 := valid_fifo_put f src[index] hv h1
    have hl1 := fifo_length_fifo_put f src[index] hv.2.1 h1
    have hm1 : (fifo_put f src[index]).buf_size_mask = f.buf_size_mask := rfl
    obtain ⟨i1, i2, i3, i4⟩ := ih (fifo_put f src[index]) (index + 1) hv1 (by omega)
      (by rw [hl1, hm1]; omega)
    unfold write_loop
    rw [if_pos hlt, hb]
    refine ⟨i1, ?_, by rw [i3]; rfl, by rw [i4, hm1]⟩
    rw [i2, contents_fifo_put f src[index] hv h1, List.drop_eq_getElem_cons hin,
      List.take_succ_cons, List.append_assoc, List.singleton_append]

theorem read_loop_spec (fuel : Nat) (f : app_fifo_t) (arr : List uint8_t)
    (index read_size : Nat) (hv : valid f) (hidx : index + fuel = read_size)
    (harr : read_size ≤ arr.length) (hfuel : fuel ≤ fifo_length f) :
    (read_loop fuel f arr index read_size).2 =
      arr.take index ++ (contents f).take fuel ++ arr.drop read_size ∧
    valid (read_loop fuel f arr index read_size).1 ∧
    contents (read_loop fuel f arr index read_size).1 = (contents f).drop fuel ∧
    (read_loop fuel f arr index read_size).1.read_pos = (f.read_pos + fuel) % 2 ^ 32 ∧
    (read_loop fuel f arr index read_size).1.write_pos = f.write_pos ∧
    (read_loop fuel f arr index read_size).1.p_buf = f.p_buf ∧
    (read_loop fuel f arr index read_size).1.buf_size_mask = f.buf_size_mask := by
  induction fuel generalizing f arr index with
  | zero =>
    have hr := hv.2.2.1
    have hi : index = read_size := by omega
    simp only [read_loop, List.take_zero, List.append_nil, List.drop_zero, Nat.add_zero]
    refine ⟨?_, hv, trivial, ?_, trivial, trivial, trivial⟩
    · rw [hi, List.take_append_drop]
    · exact (Nat.mod_eq_of_lt hr).symm
  | succ fuel ih =>
    have hlt : index < read_size := by omega
    have hin : index < arr.length := by omega
    have hne : fifo_length f ≠ 0 := by omega
    have hc := contents_fifo_get f hne
    have hl := fifo_length_fifo_get f hne
    obtain ⟨i1, i2, i3, i4, i5, i6, i7⟩ := ih (fifo_get f).1 (arr.set index (fifo_get f).2)
      (index + 1) (valid_fifo_get f hv hne) (by omega) (by rw [List.length_set]; exact harr)
      (by rw [hl]; omega)
    unfold read_loop
    rw [if_pos hlt]
    refine ⟨?_, i2, ?_, ?_, i5, i6, i7⟩
    · rw [i1, take_succ_set arr index _ hin, List.drop_set_of_lt _ _ hlt, hc]
      simp
    · rw [i3, hc]
      simp
    · rw [i4]
      simp only [fifo_get]
      omega

/-- A write from a non-null source into a valid FIFO that is not full. -/
theorem app_fifo_write_spec (f : app_fifo_t) (src : List uint8_t) (r : Nat) (hv : valid f)
    (hroom : fifo_length f ≤ f.buf_size_mask)
    (hsrc : min r (f.buf_size_mask + 1 - fifo_length f) ≤ src.length) :
    ∃ f', app_fifo_write (some f) (some src) (some r) =
        (FIFO_SUCCESS, some f', some (min r (f.buf_size_mask + 1 - fifo_length f))) ∧
      valid f' ∧
      contents f' = contents f ++ src.take (min r (f.buf_size_mask + 1 - fifo_length f)) ∧
      f'.read_pos = f.read_pos ∧
      f'.buf_size_mask = f.buf_size_mask := by
  have hav := available_count_eq f hv
  have hnz : ¬ (f.buf_size_mask + 1 - fifo_length f = 0) := by omega
  obtain ⟨i1, i2, i3, i4⟩ := write_loop_spec (min r (f.buf_size_mask + 1 - fifo_length f)) f src 0
    (min r (f.buf_size_mask + 1 - fifo_length f)) hv (by omega) hsrc (by omega)
  refine ⟨_, ?_, i1, ?_, i3, i4⟩
  · simp only [app_fifo_write, hav, FIFO_MIN_eq_min, if_neg hnz]
  · rw [i2, List.drop_zero]

/-- A read into a non-null destination from a valid FIFO that is not empty. -/
theorem app_fifo_read_spec (f : app_fifo_t) (arr : List uint8_t) (r : Nat) (hv : valid f)
    (hne : fifo_length f ≠ 0) (harr : min r (fifo_length f) ≤ arr.length) :
    ∃ f', app_fifo_read (some f) (some arr) (some r) =
        (FIFO_SUCCESS, some f',
          some ((contents f).take (min r (fifo_length f)) ++
            arr.drop (min r (fifo_length f))),
          some (min r (fifo_length f))) ∧
      valid f' ∧
      contents f' = (contents f).drop (min r (fifo_length f)) ∧
      f'.read_pos = (f.read_pos + min r (fifo_length f)) % 2 ^ 32 ∧
      f'.write_pos = f.write_pos ∧
      f'.p_buf = f.p_buf ∧
      f'.buf_size_mask = f.buf_size_mask := by
  obtain ⟨i1, i2, i3, i4, i5, i6, i7⟩ := read_loop_spec (min r (fifo_length f)) f arr 0
    (min r (fifo_length f)) hv (by omega) harr (by omega)
  refine ⟨_, ?_, i2, i3, i4, i5, i6, i7⟩
  simp only [app_fifo_read, FIFO_MIN_eq_min, if_neg hne]
  rw [i1]
  simp

/-! ## Bulk read and write -/

/-- C11: on a valid FIFO with occupancy `a > 0`, `app_fifo_read` with requested size `r` and a
non-null destination with room for `t = min r a` bytes returns `FIFO_SUCCESS` and reports `t`;
the destination then holds in its first `t` places the `t` oldest queued bytes in FIFO order
(place `i` holds what `app_fifo_peek` at index `i` yielded before the call) and is unchanged
behind them; `read_pos` has advanced by exactly `t`, and the remaining `a - t` bytes are
still queued in their order. -/
theorem bulk_read (f : app_fifo_t) (arr : List uint8_t) (r : Nat) (hv : valid f)
    (ha : 0 < fifo_length f) (harr : min r (fifo_length f) ≤ arr.length) :
    ∃ f', app_fifo_read (some f) (some arr) (some r) =
        (FIFO_SUCCESS, some f',
          some ((contents f).take (min r (fifo_length f)) ++
            arr.drop (min r (fifo_length f))),
          some (min r (fifo_length f))) ∧
      (∀ i p_byte, i < min r (fifo_length f) →
        (app_fifo_peek f i p_byte).1 = FIFO_SUCCESS ∧
        ((contents f).take (min r (fifo_length f)) ++ arr.drop (min r (fifo_length f)))[i]? =
          some (app_fifo_peek f i p_byte).2.2) ∧
      f'.read_pos = (f.read_pos + min r (fifo_length f)) % 2 ^ 32 ∧
      f'.write_pos = f.write_pos ∧
      f'.p_buf = f.p_buf ∧
      f'.buf_size_mask = f.buf_size_mask ∧
      fifo_length f' = fifo_length f - min r (fifo_length f) ∧
      contents f' = (contents f).drop (min r (fifo_length f)) := by
  obtain ⟨f', h1, _, h3, h4, h5, h6, h7⟩ := app_fifo_read_spec f arr r hv (by omega) harr
  refine ⟨f', h1, ?_, h4, h5, h6, h7, ?_, h3⟩
  · intro i p_byte hi
    have hlt : i < fifo_length f := by omega
    have hpk : app_fifo_peek f i p_byte = (FIFO_SUCCESS, f, fifo_peek f i) := by
      unfold app_fifo_peek
      rw [if_pos hlt]
    rw [hpk]
    refine ⟨rfl, ?_⟩
    have hlen : i < ((contents f).take (min r (fifo_length f))).length := by
      rw [List.length_take, length_contents]
      omega
    rw [List.getElem?_append_left hlen, List.getElem?_take_of_lt hi]
    simp [contents, hlt]
  · rw [← length_contents, h3, List.length_drop, length_contents]

theorem bulk_read_witness :
    valid ⟨[5, 6, 7, 8], 3, 4294967295, 2⟩ ∧
    ∃ f', app_fifo_read (some ⟨[5, 6, 7, 8], 3, 4294967295, 2⟩) (some [0, 0, 0]) (some 2) =
        (FIFO_SUCCESS, some f', some [8, 5, 0], some 2) ∧
      f'.read_pos = 1 ∧ contents f' = [6] := by
  refine ⟨by decide, ?_⟩
  obtain ⟨f', h1, _, h3, _, _, _, _, h8⟩ :=
    bulk_read ⟨[5, 6, 7, 8], 3, 4294967295, 2⟩ [0, 0, 0] 2 (by decide) (by decide) (by decide)
  exact ⟨f', h1, h3, h8⟩

/-- C12: `app_fifo_read` with a null destination leaves the FIFO as it was and, when the
occupancy `a` is positive, returns `FIFO_SUCCESS` and reports `a`, which on a valid FIFO is
`(write_pos - read_pos) mod 2^32`; when the occupancy is zero, `app_fifo_read` with or without
a destination returns `FIFO_ERROR_NOT_FOUND` and reports size 0. -/
theorem read_size_query (f : app_fifo_t) (r : Nat) (p_byte_array : Option (List uint8_t))
    (hv : valid f) :
    (app_fifo_read (some f) none (some r)).2.1 = some f ∧
    (0 < fifo_length f →
      app_fifo_read (some f) none (some r) =
        (FIFO_SUCCESS, some f, none, some (fifo_length f))) ∧
    ((fifo_length f : Int) = ((f.write_pos : Int) - (f.read_pos : Int)) % 2 ^ 32) ∧
    (fifo_length f = 0 →
      app_fifo_read (some f) p_byte_array (some r) =
        (FIFO_ERROR_NOT_FOUND, some f, p_byte_array, some 0)) := by
  refine ⟨?_, ?_, ?_, ?_⟩
  · simp only [app_fifo_read]
    split <;> rfl
  · intro ha
    have hne : ¬ fifo_length f = 0 := by omega
    simp only [app_fifo_read, if_neg hne]
  · obtain ⟨_, _, hr, hw, _, _⟩ := hv
    rw [fifo_length_def]
    omega
  · intro hz
    simp only [app_fifo_read, hz, if_true]

theorem read_size_query_witness :
    valid ⟨[5, 6, 7, 8], 3, 4294967295, 2⟩ ∧
    app_fifo_read (some ⟨[5, 6, 7, 8], 3, 4294967295, 2⟩) none (some 0) =
      (FIFO_SUCCESS, some ⟨[5, 6, 7, 8], 3, 4294967295, 2⟩, none, some 3) ∧
    valid ⟨[5, 6, 7, 8], 3, 9, 9⟩ ∧
    app_fifo_read (some ⟨[5, 6, 7, 8], 3, 9, 9⟩) (some [1]) (some 1) =
      (FIFO_ERROR_NOT_FOUND, some ⟨[5, 6, 7, 8], 3, 9, 9⟩, some [1], some 0) :=
  ⟨by decide,
    (read_size_query ⟨[5, 6, 7, 8], 3, 4294967295, 2⟩ 0 none (by decide)).2.1 (by decide),
    by decide,
    (read_size_query ⟨[5, 6, 7, 8], 3, 9, 9⟩ 1 (some [1]) (by decide)).2.2.2 (by decide)⟩

/-- C13: on a valid FIFO with occupancy `a` and room `m = capacity - a > 0`, `app_fifo_write`
with requested size `r` and a non-null source holding at least `t = min r m` bytes (so in
particular one of at least `r` bytes) returns `FIFO_SUCCESS` and reports `t`; the occupancy
becomes `a + t`, the first `t` source bytes are queued in input order behind the bytes already
queued, and `read_pos` is unchanged. With capacity 8 and 5 bytes queued, a write of 10
requested bytes reports 3 and fills the FIFO. -/
theorem bulk_write (f : app_fifo_t) (src : List uint8_t) (r : Nat) (hv : valid f)
    (hm : 0 < f.buf_size_mask + 1 - fifo_length f)
    (hsrc : min r (f.buf_size_mask + 1 - fifo_length f) ≤ src.length) :
    (∃ f', app_fifo_write (some f) (some src) (some r) =
        (FIFO_SUCCESS, some f', some (min r (f.buf_size_mask + 1 - fifo_length f))) ∧
      fifo_length f' = fifo_length f + min r (f.buf_size_mask + 1 - fifo_length f) ∧
      contents f' =
        contents f ++ src.take (min r (f.buf_size_mask + 1 - fifo_length f)) ∧
      f'.read_pos = f.read_pos ∧
      f'.buf_size_mask = f.buf_size_mask) ∧
    (f.buf_size_mask + 1 = 8 → fifo_length f = 5 → r = 10 →
      ∃ f', app_fifo_write (some f) (some src) (some r) = (FIFO_SUCCESS, some f', some 3) ∧
        fifo_length f' = 8 ∧ contents f' = contents f ++ src.take 3) := by
  obtain ⟨f', h1, _, h3, h4, h5⟩ := app_fifo_write_spec f src r hv (by omega) hsrc
  have hlen : fifo_length f' = fifo_length f + min r (f.buf_size_mask + 1 - fifo_length f) := by
    rw [← length_contents, h3, List.length_append, length_contents, List.length_take]
    omega
  refine ⟨⟨f', h1, hlen, h3, h4, h5⟩, ?_⟩
  intro hcap ha hr
  have ht : min r (f.buf_size_mask + 1 - fifo_length f) = 3 := by omega
  rw [ht] at h1 h3 hlen
  exact ⟨f', h1, by omega, h3⟩

theorem bulk_write_witness :
    valid ⟨[0, 0, 0, 1, 2, 3, 4, 5], 7, 3, 8⟩ ∧
    ∃ f', app_fifo_write (some ⟨[0, 0, 0, 1, 2, 3, 4, 5], 7, 3, 8⟩)
        (some [10, 11, 12, 13, 14, 15, 16, 17, 18, 19]) (some 10) =
          (FIFO_SUCCESS, some f', some 3) ∧
      fifo_length f' = 8 ∧
      contents f' = contents ⟨[0, 0, 0, 1, 2, 3, 4, 5], 7, 3, 8⟩ ++ [10, 11, 12] :=
  ⟨by decide,
    (bulk_write ⟨[0, 0, 0, 1, 2, 3, 4, 5], 7, 3, 8⟩ [10, 11, 12, 13, 14, 15, 16, 17, 18, 19] 10
      (by decide) (by decide) (by decide)).2 (by decide) (by decide) rfl⟩

/-- C14: on a valid FIFO with occupancy `a`, `app_fifo_write` with a null source leaves the
FIFO as it was and, when the room `m = capacity - a` is positive, returns `FIFO_SUCCESS` and
reports `m`; when the room is zero, `app_fifo_write` with or without a source returns
`FIFO_ERROR_NO_MEM` and reports size 0. -/
theorem write_room_query (f : app_fifo_t) (r : Nat) (p_byte_array : Option (List uint8_t))
    (hv : valid f) :
    (app_fifo_write (some f) none (some r)).2.1 = some f ∧
    (0 < f.buf_size_mask + 1 - fifo_length f →
      app_fifo_write (some f) none (some r) =
        (FIFO_SUCCESS, some f, some (f.buf_size_mask + 1 - fifo_length f))) ∧
    (f.buf_size_mask + 1 - fifo_length f = 0 →
      app_fifo_write (some f) p_byte_array (some r) =
        (FIFO_ERROR_NO_MEM, some f, some 0)) := by
  have hav := available_count_eq f hv
  refine ⟨?_, ?_, ?_⟩
  · simp only [app_fifo_write]
    split <;> rfl
  · intro hm
    have hnz : ¬ f.buf_size_mask + 1 - fifo_length f = 0 := by omega
    simp only [app_fifo_write, hav, if_neg hnz]
  · intro hz
    simp only [app_fifo_write, hav, hz, if_true]

theorem write_room_query_witness :
    valid ⟨[5, 6, 7, 8], 3, 4294967295, 2⟩ ∧
    app_fifo_write (some ⟨[5, 6, 7, 8], 3, 4294967295, 2⟩) none (some 9) =
      (FIFO_SUCCESS, some ⟨[5, 6, 7, 8], 3, 4294967295, 2⟩, some 1) ∧
    valid ⟨[5, 6, 7, 8], 3, 4294967295, 3⟩ ∧
    app_fifo_write (some ⟨[5, 6, 7, 8], 3, 4294967295, 3⟩) (some [1]) (some 1) =
      (FIFO_ERROR_NO_MEM, some ⟨[5, 6, 7, 8], 3, 4294967295, 3⟩, some 0) :=
  ⟨by decide,
    (write_room_query ⟨[5, 6, 7, 8], 3, 4294967295, 2⟩ 9 none (by decide)).2.1 (by decide),
    by decide,
    (write_room_query ⟨[5, 6, 7, 8], 3, 4294967295, 3⟩ 1 (some [1]) (by decide)).2.2
      (by decide)⟩

/-! ## Wrap-around of the counters, null parameters -/

theorem put_get_on_empty (f : app_fifo_t) (b p : uint8_t) (hv : valid f)
    (hz : fifo_length f = 0) :
    app_fifo_put f b = (FIFO_SUCCESS, fifo_put f b) ∧
    app_fifo_get (fifo_put f b) p = (FIFO_SUCCESS, (fifo_get (fifo_put f b)).1, b) ∧
    fifo_length (fifo_get (fifo_put f b)).1 = 0 := by
  have hroom : fifo_length f ≤ f.buf_size_mask := by
    rw [hz]
    exact Nat.zero_le _
  have hlp := fifo_length_fifo_put f b hv.2.1 hroom
  have hcp := contents_fifo_put f b hv hroom
  have hnil : contents f = [] := by
    apply List.eq_nil_of_length_eq_zero
    rw [length_contents, hz]
  rw [hnil, List.nil_append] at hcp
  have hne : fifo_length (fifo_put f b) ≠ 0 := by
    rw [hlp]
    omega
  have hcg := contents_fifo_get (fifo_put f b) hne
  rw [hcp, List.cons.injEq] at hcg
  refine ⟨app_fifo_put_of_room f b hroom, ?_, ?_⟩
  · rw [app_fifo_get_of_ne _ p hne, ← hcg.1]
  · rw [fifo_length_fifo_get _ hne, hlp, hz]

/-- C15: on a valid FIFO (power-of-two capacity, 32-bit counters, occupancy `k` at most the
capacity, also when `write_pos` has wrapped and is numerically below `read_pos`) a successful
`app_fifo_put` makes the occupancy `k + 1` and a successful `app_fifo_get` makes it `k - 1`;
on an empty FIFO with `read_pos = write_pos = 2^32 - 1` a put succeeds, `write_pos` becomes 0,
and the next get returns the byte put and leaves occupancy 0. -/
theorem counter_wraparound (f : app_fifo_t) (byte p_byte : uint8_t) (hv : valid f) :
    ((app_fifo_put f byte).1 = FIFO_SUCCESS →
      fifo_length (app_fifo_put f byte).2 = fifo_length f + 1) ∧
    ((app_fifo_get f p_byte).1 = FIFO_SUCCESS →
      fifo_length (app_fifo_get f p_byte).2.1 + 1 = fifo_length f) ∧
    (f.read_pos = 2 ^ 32 - 1 → f.write_pos = 2 ^ 32 - 1 →
      (app_fifo_put f byte).1 = FIFO_SUCCESS ∧
      (app_fifo_put f byte).2.write_pos = 0 ∧
      (app_fifo_get (app_fifo_put f byte).2 p_byte).1 = FIFO_SUCCESS ∧
      (app_fifo_get (app_fifo_put f byte).2 p_byte).2.2 = byte ∧
      fifo_length (app_fifo_get (app_fifo_put f byte).2 p_byte).2.1 = 0) := by
  refine ⟨?_, ?_, ?_⟩
  · intro h
    by_cases hroom : fifo_length f ≤ f.buf_size_mask
    · rw [app_fifo_put_of_room f byte hroom]
      exact fifo_length_fifo_put f byte hv.2.1 hroom
    · rw [app_fifo_put_of_full f byte hroom] at h
      simp [FIFO_SUCCESS, FIFO_ERROR_NO_MEM, FIFO_ERROR_BASE_NUM] at h
  · intro h
    by_cases hne : fifo_length f = 0
    · rw [app_fifo_get_of_empty f p_byte hne] at h
      simp [FIFO_SUCCESS, FIFO_ERROR_NOT_FOUND, FIFO_ERROR_BASE_NUM] at h
    · rw [app_fifo_get_of_ne f p_byte hne]
      show fifo_length (fifo_get f).1 + 1 = fifo_length f
      rw [fifo_length_fifo_get f hne]
      omega
  · intro hr hw
    have hz : fifo_length f = 0 := by
      rw [fifo_length_def, hr, hw]
      decide
    obtain ⟨h1, h2, h3⟩ := put_get_on_empty f byte p_byte hv hz
    rw [h1, h2]
    refine ⟨rfl, ?_, rfl, rfl, h3⟩
    show (f.write_pos + 1) % 2 ^ 32 = 0
    rw [hw]
    decide

theorem counter_wraparound_witness :
    valid ⟨[5, 6, 7, 8], 3, 4294967295, 4294967295⟩ ∧
    (app_fifo_put ⟨[5, 6, 7, 8], 3, 4294967295, 4294967295⟩ 42).2.write_pos = 0 ∧
    (app_fifo_get (app_fifo_put ⟨[5, 6, 7, 8], 3, 4294967295, 4294967295⟩ 42).2 0).2.2 = 42 ∧
    valid ⟨[5, 6, 7, 8], 3, 4294967294, 1⟩ ∧
    fifo_length (app_fifo_put ⟨[5, 6, 7, 8], 3, 4294967294, 1⟩ 42).2 =
      fifo_length ⟨[5, 6, 7, 8], 3, 4294967294, 1⟩ + 1 :=
  ⟨by decide,
    ((counter_wraparound ⟨[5, 6, 7, 8], 3, 4294967295, 4294967295⟩ 42 0 (by decide)).2.2
      (by decide) (by decide)).2.1,
    ((counter_wraparound ⟨[5, 6, 7, 8], 3, 4294967295, 4294967295⟩ 42 0 (by decide)).2.2
      (by decide) (by decide)).2.2.2.1,
    by decide,
    (counter_wraparound ⟨[5, 6, 7, 8], 3, 4294967294, 1⟩ 42 0 (by decide)).1 (by decide)⟩

/-- C16: when the FIFO pointer or the size pointer is null, `app_fifo_read` and
`app_fifo_write` return the constant `NULL`, which is zero and so equals `FIFO_SUCCESS`, not
`FIFO_ERROR_NULL`; they leave the FIFO, the byte array and the size as they were. -/
theorem read_write_null_parameter (f : app_fifo_t) (p_byte_array : Option (List uint8_t))
    (p_size : Option Nat) :
    app_fifo_read none p_byte_array p_size = (FIFO_SUCCESS, none, p_byte_array, p_size) ∧
    app_fifo_read (some f) p_byte_array none = (FIFO_SUCCESS, some f, p_byte_array, none) ∧
    app_fifo_write none p_byte_array p_size = (FIFO_SUCCESS, none, p_size) ∧
    app_fifo_write (some f) p_byte_array none = (FIFO_SUCCESS, some f, none) ∧
    FIFO_SUCCESS ≠ FIFO_ERROR_NULL ∧ FIFO_ERROR_NULL = 14 := by
  refine ⟨rfl, rfl, rfl, rfl, by decide, rfl⟩

/-! ## Refinement of the specification's queue -/

/-- C17: with `contents` the bytes `p_buf[(read_pos + i) & buf_size_mask]` for `i` below the
occupancy, on a valid FIFO of capacity `C`: `app_fifo_put` succeeds exactly when `contents` has
fewer than `C` bytes and then appends the byte; `app_fifo_get` succeeds exactly when `contents`
is non-empty, returns its head and leaves its tail; both agree with the specification's queue
(`queue_put`, `queue_get`) and keep the FIFO valid. For capacity 4: puts of A, B, C, D succeed,
a put of E fails Full, a get yields A, a put of E then succeeds and four gets yield
B, C, D, E. -/
theorem queue_refinement (f : app_fifo_t) (byte p_byte : uint8_t) (hv : valid f) :
    ((app_fifo_put f byte).1 = FIFO_SUCCESS ↔ (contents f).length < f.buf_size_mask + 1) ∧
    ((app_fifo_put f byte).1, contents (app_fifo_put f byte).2) =
      queue_put (f.buf_size_mask + 1) (contents f) byte ∧
    valid (app_fifo_put f byte).2 ∧
    ((app_fifo_get f p_byte).1 = FIFO_SUCCESS ↔ contents f ≠ []) ∧
    ((app_fifo_get f p_byte).1, contents (app_fifo_get f p_byte).2.1) =
      ((queue_get (contents f)).1, (queue_get (contents f)).2.1) ∧
    ((app_fifo_get f p_byte).1 = FIFO_SUCCESS →
      some (app_fifo_get f p_byte).2.2 = (queue_get (contents f)).2.2 ∧
      (contents f).head? = some (app_fifo_get f p_byte).2.2 ∧
      contents (app_fifo_get f p_byte).2.1 = (contents f).tail) ∧
    valid (app_fifo_get f p_byte).2.1 ∧
    ∀ (p_fifo : app_fifo_t) (buf : List uint8_t) (A B C D E q : uint8_t), 4 ≤ buf.length →
      ∃ s1 s2 s3,
        put_all (app_fifo_init p_fifo (some buf) 4).2 [A, B, C, D] =
          ([FIFO_SUCCESS, FIFO_SUCCESS, FIFO_SUCCESS, FIFO_SUCCESS], s1) ∧
        app_fifo_put s1 E = (FIFO_ERROR_NO_MEM, s1) ∧
        app_fifo_get s1 q = (FIFO_SUCCESS, s2, A) ∧
        app_fifo_put s2 E = (FIFO_SUCCESS, s3) ∧
        (get_n s3 q 4).1 =
          [(FIFO_SUCCESS, B), (FIFO_SUCCESS, C), (FIFO_SUCCESS, D), (FIFO_SUCCESS, E)] := by
  have hput : ((app_fifo_put f byte).1 = FIFO_SUCCESS ↔
        (contents f).length < f.buf_size_mask + 1) ∧
      ((app_fifo_put f byte).1, contents (app_fifo_put f byte).2) =
        queue_put (f.buf_size_mask + 1) (contents f) byte ∧
      valid (app_fifo_put f byte).2 := by
    rw [length_contents]
    by_cases hroom : fifo_length f ≤ f.buf_size_mask
    · have hlt : fifo_length f < f.buf_size_mask + 1 := by omega
      rw [app_fifo_put_of_room f byte hroom]
      refine ⟨⟨fun _ => hlt, fun _ => rfl⟩, ?_, valid_fifo_put f byte hv hroom⟩
      simp only [queue_put, length_contents, if_pos hlt, contents_fifo_put f byte hv hroom]
    · have hlt : ¬ fifo_length f < f.buf_size_mask + 1 := by omega
      rw [app_fifo_put_of_full f byte hroom]
      refine ⟨⟨?_, fun h => absurd h hlt⟩, ?_, hv⟩
      · intro h
        simp [FIFO_SUCCESS, FIFO_ERROR_NO_MEM, FIFO_ERROR_BASE_NUM] at h
      · simp only [queue_put, length_contents, if_neg hlt]
  have hget : ((app_fifo_get f p_byte).1 = FIFO_SUCCESS ↔ contents f ≠ []) ∧
      ((app_fifo_get f p_byte).1, contents (app_fifo_get f p_byte).2.1) =
        ((queue_get (contents f)).1, (queue_get (contents f)).2.1) ∧
      ((app_fifo_get f p_byte).1 = FIFO_SUCCESS →
        some (app_fifo_get f p_byte).2.2 = (queue_get (contents f)).2.2 ∧
        (contents f).head? = some (app_fifo_get f p_byte).2.2 ∧
        contents (app_fifo_get f p_byte).2.1 = (contents f).tail) ∧
      valid (app_fifo_get f p_byte).2.1 := by
    by_cases hz : fifo_length f = 0
    · have hnil : contents f = [] := by
        apply List.eq_nil_of_length_eq_zero
        rw [length_contents, hz]
      rw [app_fifo_get_of_empty f p_byte hz, hnil]
      refine ⟨⟨?_, fun h => absurd rfl h⟩, ?_, ?_, hv⟩
      · intro h
        simp [FIFO_SUCCESS, FIFO_ERROR_NOT_FOUND, FIFO_ERROR_BASE_NUM] at h
      · simp only [queue_get, hnil]
      · intro h
        simp [FIFO_SUCCESS, FIFO_ERROR_NOT_FOUND, FIFO_ERROR_BASE_NUM] at h
    · have hc := contents_fifo_get f hz
      rw [app_fifo_get_of_ne f p_byte hz, hc]
      refine ⟨⟨fun _ => List.cons_ne_nil _ _, fun _ => rfl⟩, rfl, fun _ => ⟨rfl, rfl, rfl⟩,
        valid_fifo_get f hv hz⟩
  refine ⟨hput.1, hput.2.1, hput.2.2, hget.1, hget.2.1, hget.2.2.1, hget.2.2.2, ?_⟩
  intro p_fifo buf A B C D E q hbuf
  obtain ⟨_, hv0, hl0, hm0⟩ :=
    valid_app_fifo_init p_fifo buf 4 ⟨2, rfl⟩ (by decide) hbuf
  have hnil : contents (app_fifo_init p_fifo (some buf) 4).2 = [] := by
    apply List.eq_nil_of_length_eq_zero
    rw [length_contents, hl0]
  obtain ⟨a1, a2, a3, a4⟩ := put_all_spec [A, B, C, D] (app_fifo_init p_fifo (some buf) 4).2 hv0
    (by rw [hl0, hm0]; simp)
  rw [hnil, List.nil_append] at a3
  have a1' : (put_all (app_fifo_init p_fifo (some buf) 4).2 [A, B, C, D]).1 =
      [FIFO_SUCCESS, FIFO_SUCCESS, FIFO_SUCCESS, FIFO_SUCCESS] := by
    rw [a1]
    rfl
  have hm1 : (put_all (app_fifo_init p_fifo (some buf) 4).2 [A, B, C, D]).2.buf_size_mask = 3 := by
    rw [a4]
    omega
  obtain ⟨s1, hs1⟩ : ∃ s1, (put_all (app_fifo_init p_fifo (some buf) 4).2 [A, B, C, D]).2 = s1 :=
    ⟨_, rfl⟩
  rw [hs1] at a2 a3 hm1
  have hl1 : fifo_length s1 = 4 := by
    rw [← length_contents, a3]
    rfl
  have hfull : ¬ fifo_length s1 ≤ s1.buf_size_mask := by
    rw [hl1, hm1]
    decide
  have hne1 : fifo_length s1 ≠ 0 := by
    rw [hl1]
    decide
  have hc2 := contents_fifo_get s1 hne1
  rw [a3, List.cons.injEq] at hc2
  have hv2 := valid_fifo_get s1 a2 hne1
  have hl2 := fifo_length_fifo_get s1 hne1
  have hm2 : (fifo_get s1).1.buf_size_mask = s1.buf_size_mask := rfl
  have hroom2 : fifo_length (fifo_get s1).1 ≤ (fifo_get s1).1.buf_size_mask := by
    rw [hl2, hm2, hl1, hm1]
  have hc3 := contents_fifo_put (fifo_get s1).1 E hv2 hroom2
  rw [← hc2.2, List.cons_append, List.cons_append, List.cons_append, List.nil_append] at hc3
  have hv3 := valid_fifo_put (fifo_get s1).1 E hv2 hroom2
  have hg : (get_n (fifo_put (fifo_get s1).1 E) q 4).1 =
      [(FIFO_SUCCESS, B), (FIFO_SUCCESS, C), (FIFO_SUCCESS, D), (FIFO_SUCCESS, E)] := by
    have h := (get_n_spec [B, C, D, E] (fifo_put (fifo_get s1).1 E) q [] hv3
      (by rw [hc3, List.append_nil])).1
    simpa using h
  refine ⟨s1, (fifo_get s1).1, fifo_put (fifo_get s1).1 E, ?_, app_fifo_put_of_full s1 E hfull,
    ?_, app_fifo_put_of_room _ E hroom2, hg⟩
  · exact Prod.ext a1' hs1
  · rw [app_fifo_get_of_ne s1 q hne1, ← hc2.1]

theorem queue_refinement_witness :
    valid ⟨[5, 6, 7, 8], 3, 4294967295, 2⟩ ∧
    ((app_fifo_get ⟨[5, 6, 7, 8], 3, 4294967295, 2⟩ 0).1,
      contents (app_fifo_get ⟨[5, 6, 7, 8], 3, 4294967295, 2⟩ 0).2.1) =
      ((queue_get (contents ⟨[5, 6, 7, 8], 3, 4294967295, 2⟩)).1,
        (queue_get (contents ⟨[5, 6, 7, 8], 3, 4294967295, 2⟩)).2.1) ∧
    (contents ⟨[5, 6, 7, 8], 3, 4294967295, 2⟩).head? =
      some (app_fifo_get ⟨[5, 6, 7, 8], 3, 4294967295, 2⟩ 0).2.2 :=
  ⟨by decide,
    (queue_refinement ⟨[5, 6, 7, 8], 3, 4294967295, 2⟩ 9 0 (by decide)).2.2.2.2.1,
    ((queue_refinement ⟨[5, 6, 7, 8], 3, 4294967295, 2⟩ 9 0 (by decide)).2.2.2.2.2.1
      (by decide)).2.1⟩

/-! ## Frame of each operation, index bounds, write then read -/

theorem write_loop_frame (fuel : Nat) (f : app_fifo_t) (src : List uint8_t)
    (index write_size : Nat) :
    (write_loop fuel f src index write_size).read_pos = f.read_pos ∧
    (write_loop fuel f src index write_size).buf_size_mask = f.buf_size_mask := by
  induction fuel generalizing f index with
  | zero => exact ⟨rfl, rfl⟩
  | succ fuel ih =>
    unfold write_loop
    by_cases hlt : index < write_size
    · rw [if_pos hlt]
      obtain ⟨i1, i2⟩ := ih (fifo_put f (src.getD index 0)) (index + 1)
      exact ⟨i1, i2⟩
    · rw [if_neg hlt]
      exact ⟨rfl, rfl⟩

theorem read_loop_frame (fuel : Nat) (f : app_fifo_t) (arr : List uint8_t)
    (index read_size : Nat) :
    (read_loop fuel f arr index read_size).1.write_pos = f.write_pos ∧
    (read_loop fuel f arr index read_size).1.p_buf = f.p_buf ∧
    (read_loop fuel f arr index read_size).1.buf_size_mask = f.buf_size_mask := by
  induction fuel generalizing f arr index with
  | zero => exact ⟨rfl, rfl, rfl⟩
  | succ fuel ih =>
    unfold read_loop
    by_cases hlt : index < read_size
    · rw [if_pos hlt]
      obtain ⟨i1, i2, i3⟩ := ih (fifo_get f).1 (arr.set index (fifo_get f).2) (index + 1)
      exact ⟨i1, i2, i3⟩
    · rw [if_neg hlt]
      exact ⟨rfl, rfl, rfl⟩

/-- C18: `app_fifo_put` and `app_fifo_write` never change `read_pos`; `app_fifo_get`,
`app_fifo_peek`, `app_fifo_flush` and `app_fifo_read` never change `write_pos` nor any byte of
the backing array; none of the six changes `buf_size_mask`. -/
theorem single_writer_frame (f : app_fifo_t) :
    (∀ byte, (app_fifo_put f byte).2.read_pos = f.read_pos ∧
      (app_fifo_put f byte).2.buf_size_mask = f.buf_size_mask) ∧
    (∀ p_byte_array p_size,
      (app_fifo_write (some f) p_byte_array p_size).2.1.map
        (fun g => (g.read_pos, g.buf_size_mask)) = some (f.read_pos, f.buf_size_mask)) ∧
    (∀ p_byte, (app_fifo_get f p_byte).2.1.write_pos = f.write_pos ∧
      (app_fifo_get f p_byte).2.1.p_buf = f.p_buf ∧
      (app_fifo_get f p_byte).2.1.buf_size_mask = f.buf_size_mask) ∧
    (∀ index p_byte, (app_fifo_peek f index p_byte).2.1.write_pos = f.write_pos ∧
      (app_fifo_peek f index p_byte).2.1.p_buf = f.p_buf ∧
      (app_fifo_peek f index p_byte).2.1.buf_size_mask = f.buf_size_mask) ∧
    ((app_fifo_flush f).2.write_pos = f.write_pos ∧
      (app_fifo_flush f).2.p_buf = f.p_buf ∧
      (app_fifo_flush f).2.buf_size_mask = f.buf_size_mask) ∧
    (∀ p_byte_array p_size,
      (app_fifo_read (some f) p_byte_array p_size).2.1.map
        (fun g => (g.write_pos, g.p_buf, g.buf_size_mask)) =
          some (f.write_pos, f.p_buf, f.buf_size_mask)) := by
  refine ⟨?_, ?_, ?_, ?_, ⟨rfl, rfl, rfl⟩, ?_⟩
  · intro byte
    unfold app_fifo_put
    split
    · exact ⟨rfl, rfl⟩
    · exact ⟨rfl, rfl⟩
  · intro p_byte_array p_size
    cases p_size with
    | none => rfl
    | some size =>
      simp only [app_fifo_write]
      split
      · rfl
      · cases p_byte_array with
        | none => rfl
        | some src =>
          obtain ⟨i1, i2⟩ := write_loop_frame
            (FIFO_MIN size ((sub32 f.buf_size_mask (fifo_length f) + 1) % 2 ^ 32)) f src 0
            (FIFO_MIN size ((sub32 f.buf_size_mask (fifo_length f) + 1) % 2 ^ 32))
          simp only [Option.map_some', i1, i2]
  · intro p_byte
    unfold app_fifo_get
    split
    · exact ⟨rfl, rfl, rfl⟩
    · exact ⟨rfl, rfl, rfl⟩
  · intro index p_byte
    unfold app_fifo_peek
    split
    · exact ⟨rfl, rfl, rfl⟩
    · exact ⟨rfl, rfl, rfl⟩
  · intro p_byte_array p_size
    cases p_size with
    | none => rfl
    | some size =>
      simp only [app_fifo_read]
      split
      · rfl
      · cases p_byte_array with
        | none => rfl
        | some arr =>
          obtain ⟨i1, i2, i3⟩ := read_loop_frame (FIFO_MIN size (fifo_length f)) f arr 0
            (FIFO_MIN size (fifo_length f))
          simp only [Option.map_some', i1, i2, i3]

/-- C19: for a FIFO initialised with a power-of-two `buf_size` `C` over a backing array of
length `C`, whatever the values of the two counters and of the index, the array index
`write_pos & buf_size_mask` of `fifo_put` and the array index
`((read_pos + index) mod 2^32) & buf_size_mask` of `fifo_peek` and `fifo_get` are below `C`:
the store of `fifo_put` lands in the array, which keeps its length, and `fifo_peek` and
`fifo_get` yield an element of the array. -/
theorem index_safety (p_fifo : app_fifo_t) (buf : List uint8_t) (C r w index : Nat)
    (byte : uint8_t) (hC : ∃ k, C = 2 ^ k) (h16 : C < 2 ^ 16) (hbuf : buf.length = C) :
    (with_counters (app_fifo_init p_fifo (some buf) C).2 r w).p_buf.length = C ∧
    w &&& (with_counters (app_fifo_init p_fifo (some buf) C).2 r w).buf_size_mask < C ∧
    ((r + index) % 2 ^ 32) &&&
      (with_counters (app_fifo_init p_fifo (some buf) C).2 r w).buf_size_mask < C ∧
    (fifo_put (with_counters (app_fifo_init p_fifo (some buf) C).2 r w) byte).p_buf.length = C ∧
    (fifo_put (with_counters (app_fifo_init p_fifo (some buf) C).2 r w) byte).p_buf[
      w &&& (with_counters (app_fifo_init p_fifo (some buf) C).2 r w).buf_size_mask]? =
        some byte ∧
    (with_counters (app_fifo_init p_fifo (some buf) C).2 r w).p_buf[
      ((r + index) % 2 ^ 32) &&&
        (with_counters (app_fifo_init p_fifo (some buf) C).2 r w).buf_size_mask]? =
        some (fifo_peek (with_counters (app_fifo_init p_fifo (some buf) C).2 r w) index) ∧
    (with_counters (app_fifo_init p_fifo (some buf) C).2 r w).p_buf[
      ((r + 0) % 2 ^ 32) &&&
        (with_counters (app_fifo_init p_fifo (some buf) C).2 r w).buf_size_mask]? =
        some (fifo_get (with_counters (app_fifo_init p_fifo (some buf) C).2 r w)).2 := by
  have hp := (FIFO_IS_POWER_OF_TWO_iff C).2 hC
  have hpos : 0 < C := by
    obtain ⟨k, rfl⟩ := hC
    positivity
  have hs : app_fifo_init p_fifo (some buf) C = (FIFO_SUCCESS, ⟨buf, C - 1, 0, 0⟩) := by
    simp [app_fifo_init, hp]
    omega
  rw [hs]
  have hidx : ∀ x : Nat, x &&& (C - 1) < buf.length := by
    intro x
    have := @Nat.and_le_right x (C - 1)
    omega
  simp only [with_counters, fifo_put, fifo_peek, fifo_get, List.length_set,
    List.getD_eq_getElem?_getD]
  refine ⟨hbuf, lt_of_lt_of_eq (hidx w) hbuf, lt_of_lt_of_eq (hidx _) hbuf, hbuf, ?_, ?_, ?_⟩
  · rw [List.getElem?_set_self (hidx w)]
  · rw [List.getElem?_eq_getElem (hidx _)]
    rfl
  · rw [List.getElem?_eq_getElem (hidx _)]
    rfl

theorem index_safety_witness :
    ([5, 6, 7, 8] : List uint8_t).length = 4 ∧
    (fifo_put (with_counters (app_fifo_init ⟨[], 0, 0, 0⟩ (some [5, 6, 7, 8]) 4).2
      4294967295 4294967294) 9).p_buf[4294967294 &&&
        (with_counters (app_fifo_init ⟨[], 0, 0, 0⟩ (some [5, 6, 7, 8]) 4).2
          4294967295 4294967294).buf_size_mask]? = some 9 :=
  ⟨rfl,
    (index_safety ⟨[], 0, 0, 0⟩ [5, 6, 7, 8] 4 4294967295 4294967294 65535 9 ⟨2, rfl⟩
      (by decide) rfl).2.2.2.2.1⟩

/-- C20: on an empty valid FIFO of capacity `C` (any counter values with
`read_pos = write_pos`), for a byte list `d` of length `n` with `1 ≤ n ≤ C`,
`app_fifo_write` of `d` with requested size `n` returns `FIFO_SUCCESS` and reports `n`, and a
following `app_fifo_read` with requested size `n` into a destination of at least `n` bytes
returns `FIFO_SUCCESS`, reports `n`, leaves `d` in the first `n` places of the destination (the
whole of a destination of `n` bytes) and leaves the FIFO empty. -/
theorem write_read_round_trip (f : app_fifo_t) (d dst : List uint8_t) (hv : valid f)
    (hempty : f.read_pos = f.write_pos) (h1 : 1 ≤ d.length)
    (hn : d.length ≤ f.buf_size_mask + 1) (hdst : d.length ≤ dst.length) :
    ∃ f1 f2,
      app_fifo_write (some f) (some d) (some d.length) =
        (FIFO_SUCCESS, some f1, some d.length) ∧
      app_fifo_read (some f1) (some dst) (some d.length) =
        (FIFO_SUCCESS, some f2, some (d ++ dst.drop d.length), some d.length) ∧
      (dst.length = d.length → d ++ dst.drop d.length = d) ∧
      fifo_length f2 = 0 ∧
      contents f2 = [] := by
  have hz : fifo_length f = 0 := by
    obtain ⟨_, _, hr, hw, _, _⟩ := hv
    rw [fifo_length_def, hempty]
    omega
  have hnil : contents f = [] := by
    apply List.eq_nil_of_length_eq_zero
    rw [length_contents, hz]
  have ht : min d.length (f.buf_size_mask + 1 - fifo_length f) = d.length := by omega
  obtain ⟨f1, w1, w2, w3, _, _⟩ := app_fifo_write_spec f d d.length hv (by omega) (by omega)
  rw [ht] at w1 w3
  rw [hnil, List.nil_append, List.take_length] at w3
  have hl1 : fifo_length f1 = d.length := by rw [← length_contents, w3]
  have ht1 : min d.length (fifo_length f1) = d.length := by omega
  obtain ⟨f2, r1, _, r3, _, _, _, _⟩ :=
    app_fifo_read_spec f1 dst d.length w2 (by omega) (by omega)
  rw [ht1, w3] at r1 r3
  rw [List.take_length] at r1
  rw [List.drop_length] at r3
  refine ⟨f1, f2, w1, r1, ?_, ?_, r3⟩
  · intro hl
    rw [← hl, List.drop_length, List.append_nil]
  · rw [← length_contents, r3]
    rfl

theorem write_read_round_trip_witness :
    valid ⟨[5, 6, 7, 8], 3, 4294967295, 4294967295⟩ ∧
    ∃ f1 f2,
      app_fifo_write (some ⟨[5, 6, 7, 8], 3, 4294967295, 4294967295⟩) (some [1, 2, 3])
          (some 3) = (FIFO_SUCCESS, some f1, some 3) ∧
      app_fifo_read (some f1) (some [0, 0, 0]) (some 3) =
        (FIFO_SUCCESS, some f2, some [1, 2, 3], some 3) ∧
      fifo_length f2 = 0 := by
  refine ⟨by decide, ?_⟩
  obtain ⟨f1, f2, h1, h2, _, h4, _⟩ :=
    write_read_round_trip ⟨[5, 6, 7, 8], 3, 4294967295, 4294967295⟩ [1, 2, 3] [0, 0, 0]
      (by decide) rfl (by decide) (by decide) (by decide)
  exact ⟨f1, f2, h1, h2, h4⟩

end AppFifo
